import Mathlib

/-!
# Verification of `pixivmanager` mirror-persistence layer (`models.py`)

A shallow embedding of the persistence layer of `pixivmanager`
(`pixivmanager/models.py`, with the dashboard entry point in
`pixivmanager/webserver.py`), together with proofs about the claims made by
the specification.

Modelling conventions:

* SQLAlchemy ORM objects are modelled by an explicit object heap
  (`Ctx.heap` for `Tag` objects, whose mutable `translation` collections are
  shared by reference between the session's `tags` table and the
  `tags_cache` dictionary).  Table contents of one session are lists of rows
  (`SessDb`).  Auto-increment primary keys are modelled by explicit
  `next…` counters on the session (assigned at `add`/`flush` time).
* Python `dict` objects (the tag cache) are association lists whose insert
  operation overwrites an existing key in place, like a `dict` item
  assignment.
* Python truthiness tests (`if j.get('caption')`, `if t_translate`,
  `if j.get('total_bookmarks') and j.get('total_view')`, ...) are modelled
  exactly: `None`, `0`, `''` and `[]` are falsy.
* `dict_setattr(obj, kv)` (models.py lines 19-21) followed by the upsert
  pattern `query ... one_or_none; if absent construct-and-add else merge`
  is modelled by an explicit merge function per entity plus
  `listUpdateFirst`; `one_or_none` is modelled as a first-match search,
  which agrees with the source whenever the natural-key uniqueness
  invariant holds.
* One-to-one satellite tables addressed only through their owning row
  (`works_captions`, keyed by `works_id`) are modelled as a field of the
  owning row, since they are keyed by the same natural key.
  The unconditional image-URL stage of `Works.from_json` is modelled by
  `WorksImageURLs.from_works_json` (its mandatory key accesses shape the
  type of admissible inputs); the `works_tags` association, the
  `works_image_urls` table contents and the `ugoira` wiring do not
  contribute to any claim about `works` table rows and are modelled
  through their own entry points below.
* Python integers are `Nat` (ids, counts) or `Int` (ugoira frame delays);
  the bookmark-rate arithmetic is carried out in `ℚ`, with Python `round`
  (banker's rounding) modelled by `pyRound5`.
-/

/-- Python truthiness of an optional integer (`None` and `0` are falsy). -/
def truthyNat : Option Nat → Bool
  | none => false
  | some n => n != 0

/-- Python truthiness of an optional string (`None` and `''` are falsy). -/
def truthyStr : Option String → Bool
  | none => false
  | some s => s != ""

/-- Python truthiness of a list (`[]` is falsy). -/
def truthyList {α : Type} (l : List α) : Bool := !l.isEmpty

/-- Python `round` to an integer: round half to even (banker's rounding). -/
def pyRoundInt (q : ℚ) : ℤ :=
  let f : ℤ := ⌊q⌋
  let r : ℚ := q - f
  if r < 1/2 then f
  else if r > 1/2 then f + 1
  else if f % 2 = 0 then f else f + 1

/-- Python `round(x, 5)`: round to 5 decimal places, half to even. -/
def pyRound5 (q : ℚ) : ℚ := (pyRoundInt (q * 100000) : ℚ) / 100000

/-- The tag cache `{tag_text: Tag()}` (models.py line 489): a Python dict
mapping tag text to a reference to a `Tag` object on the heap. -/
abbrev TagsCache := List (String × Nat)

/-- `cache.get(t_name)`: first-match lookup (a dict holds each key once). -/
def cacheLookup (c : TagsCache) (k : String) : Option Nat :=
  (c.find? (fun p => p.1 == k)).map (·.2)

/-- `cache[t_name] = t`: overwrite the existing key in place, else append
(Python dicts keep insertion order and hold each key once). -/
def cacheInsert (c : TagsCache) (k : String) (v : Nat) : TagsCache :=
  if (c.find? (fun p => p.1 == k)).isSome then
    c.map (fun p => if p.1 == k then (k, v) else p)
  else c ++ [(k, v)]

/-- Mutating the single ORM object returned by `one_or_none`: update the
first row matching `p` in place. -/
def listUpdateFirst {α : Type} (p : α → Bool) (f : α → α) : List α → List α
  | [] => []
  | x :: xs => if p x then f x :: xs else x :: listUpdateFirst p f xs

/-- A row of `tags_translation` (class `TagTranslation`). -/
structure TagTranslation where
  tag_id : Nat
  language : String
  translation_text : String
deriving DecidableEq, Repr

/-- A `Tag` ORM object: a row of `tags` plus its `translation` relationship
collection (class `Tag`). -/
structure Tag where
  tag_id : Nat
  tag_text : String
  translation : List TagTranslation
deriving DecidableEq, Repr

/-- One element of the `tags` list inside a works JSON:
`{'name': ..., 'translated_name': ...}`. -/
structure TagIn where
  name : String
  translated_name : Option String
deriving DecidableEq, Repr

/-- A row of the `works` table (class `Works`).  `caption` stands for the
one-to-one `works_captions` satellite row (same natural key `works_id`). -/
structure Works where
  works_id : Nat
  author_id : Nat
  works_type : Option String
  title : Option String
  page_count : Option Nat
  total_views : Option Nat
  total_bookmarks : Option Nat
  is_bookmarked : Option Bool
  is_downloaded : Option Bool
  bookmark_rate : Option ℚ
  create_date : Option Nat
  insert_date : Nat
  caption : Option String
deriving DecidableEq, Repr

/-- A row of the `users` table (class `User`). -/
structure User where
  local_id : Nat
  user_id : Nat
  name : String
  account : String
  is_followed : Bool
  insert_date : Nat
deriving DecidableEq, Repr

/-- A row of the `users_details` table (class `UserDetail`). -/
structure UserDetail where
  user_id : Nat
  total_illusts : Nat
  total_manga : Nat
  total_novels : Nat
  total_illust_bookmarks_public : Nat
  total_follow_users : Nat
  avatar_url : String
  background_url : String
  comment : String
deriving DecidableEq, Repr

/-- A row of the `works_local` insertion-order table (class `WorksLocal`). -/
structure WorksLocal where
  local_id : Nat
  works_id : Nat
deriving DecidableEq, Repr

/-- A `Ugoira` ORM object: a row of `ugoiras` plus the instance attribute
`_delay` used for memoization (the class-level default is `[]`). -/
structure Ugoira where
  works_id : Nat
  delay_text : List Char
  zip_url : String
  memo_delay : List Int
deriving DecidableEq, Repr

/-- One four-variant image block (`square_medium` / `medium` / `large` /
`original`), as read by `WorksImageURLs.from_works_json`. -/
structure ImageUrlsIn where
  square_medium : String
  medium : String
  large : String
  original : String
deriving DecidableEq, Repr

/-- One element of `meta_pages`: `{'image_urls': {...}}`. -/
structure MetaPageIn where
  image_urls : ImageUrlsIn
deriving DecidableEq, Repr

/-- A row of the `works_image_urls` table (class `WorksImageURLs`). -/
structure WorksImageURLs where
  works_id : Nat
  page : Nat
  square_medium : String
  medium : String
  large : String
  original : String
deriving DecidableEq, Repr

/-- The works JSON consumed by `Works.from_json`.  Mandatory key accesses
in the source are `id`, `user.id`, and — through the unconditional
`WorksImageURLs.from_works_json(session, j)` call at models.py line 143 —
`page_count` (subscripted at line 393 before anything else, so a JSON
lacking it raises before the upsert runs), plus `meta_pages` when
`page_count > 1` and `meta_single_page` / `image_urls` when
`page_count == 1` (lines 393-420; the `and` of lines 393/408
short-circuits, so with `page_count = 0` no meta block is touched).
These keys are carried as always-present fields, so every value of this
type corresponds to a JSON on which `from_works_json` completes;
`meta_single_page = none` stands for the present-but-empty (falsy) dict.
The remaining fields are read with `.get` and may be absent;
`create_date` stands for the already-parsed timestamp (`iso_to_datetime`
lives in the out-of-scope helpers module). -/
structure WorksJson where
  id : Nat
  user_id : Nat
  works_type : Option String
  title : Option String
  page_count : Nat
  meta_pages : List MetaPageIn
  meta_single_page : Option String
  image_urls : ImageUrlsIn
  total_view : Option Nat
  total_bookmarks : Option Nat
  is_bookmarked : Option Bool
  caption : Option String
  create_date : Option Nat
  tags : List TagIn
deriving DecidableEq, Repr

/-- The user JSON consumed by `User.from_json` / `UserDetail.from_user_json`;
all fields below are mandatory key accesses in the source. -/
structure UserJson where
  user_id : Nat
  name : String
  account : String
  is_followed : Bool
  total_illusts : Nat
  total_manga : Nat
  total_novels : Nat
  total_illust_bookmarks_public : Nat
  total_follow_users : Nat
  avatar_url : String
  background_url : String
  comment : String
deriving DecidableEq, Repr

/-- `ugoira_json`: the `ugoira_metadata` block.  `frames` is the list of the
frames' `delay` values; `zip_url` is `zip_urls['medium']`. -/
structure UgoiraJson where
  frames : List Int
  zip_url : String
deriving DecidableEq, Repr

/-- One session's view of the database tables used by the claims. -/
structure SessDb where
  sessionTags : List Nat
  nextTagId : Nat
  works : List Works
  users : List User
  nextUserLocalId : Nat
  userDetails : List UserDetail
  worksLocal : List WorksLocal
  nextWorksLocalId : Nat
  ugoiras : List Ugoira
deriving DecidableEq, Repr

/-- The state threaded through the ingestion functions: the `Tag` object
heap, one session's tables, and the tag cache dict in use. -/
structure Ctx where
  heap : List Tag
  db : SessDb
  cache : TagsCache
deriving DecidableEq, Repr

/-- `tag_text` of the heap object referenced by `r`. -/
def tagTextAt (heap : List Tag) (r : Nat) : String :=
  (heap.getD r ⟨0, "", []⟩).tag_text

/-- The translation-merge step of `Tag.from_tags_json`
(models.py lines 497-506): overwrite the text of every row of the tag's
`translation` collection whose `language` matches, and if none matched,
append one new `TagTranslation` row. -/
def mergeTranslation (trs : List TagTranslation) (tid : Nat)
    (language txt : String) : List TagTranslation :=
  if trs.any (fun tt => tt.language == language) then
    trs.map (fun tt =>
      if tt.language == language then { tt with translation_text := txt } else tt)
  else trs ++ [⟨tid, language, txt⟩]

/-- `if t_translate: ...` (models.py lines 496-506): when the incoming
translated name is truthy, apply `mergeTranslation` to the resolved tag
object in place. -/
def applyTranslate (ctx : Ctx) (r : Nat) (t_translate : Option String)
    (language : String) : Ctx :=
  match t_translate with
  | none => ctx
  | some txt =>
    if txt == "" then ctx
    else
      let obj := ctx.heap.getD r ⟨0, "", []⟩
      let obj2 := { obj with
        translation := mergeTranslation obj.translation obj.tag_id language txt }
      { ctx with heap := ctx.heap.set r obj2 }

/-- The body of the `for _t in tags` loop of `Tag.from_tags_json` for one
non-duplicate tag (models.py lines 488-507): look the name up in the cache,
then in the session's `tags` table by `tag_text`; if both miss, construct a
new `Tag`, `session.add` it and flush (assigning its `tag_id`); then merge
the translated name and store the tag back into the cache. -/
def resolveOne (ctx : Ctx) (t_name : String) (t_translate : Option String)
    (language : String) : Nat × Ctx :=
  let hit : Option Nat :=
    match cacheLookup ctx.cache t_name with
    | some r => some r
    | none => ctx.db.sessionTags.find? (fun rf => tagTextAt ctx.heap rf == t_name)
  match hit with
  | some r =>
    let ctx := applyTranslate ctx r t_translate language
    (r, { ctx with cache := cacheInsert ctx.cache t_name r })
  | none =>
    let r := ctx.heap.length
    let obj : Tag := ⟨ctx.db.nextTagId, t_name, []⟩
    let ctx := { ctx with
      heap := ctx.heap ++ [obj],
      db := { ctx.db with
        sessionTags := ctx.db.sessionTags ++ [r],
        nextTagId := ctx.db.nextTagId + 1 } }
    let ctx := applyTranslate ctx r t_translate language
    (r, { ctx with cache := cacheInsert ctx.cache t_name r })

/-- The `for _t in tags` loop of `Tag.from_tags_json` (models.py lines
481-508), carrying the `_tags` seen-name set: a name already seen in this
item's list is skipped (`continue`) before any resolution happens. -/
def fromTagsJsonLoop (ctx : Ctx) (language : String) (seen : List String) :
    List TagIn → List Nat × Ctx
  | [] => ([], ctx)
  | t :: rest =>
    if t.name ∈ seen then fromTagsJsonLoop ctx language seen rest
    else
      let rc := resolveOne ctx t.name t.translated_name language
      let rsc := fromTagsJsonLoop rc.2 language (t.name :: seen) rest
      (rc.1 :: rsc.1, rsc.2)

/-- `Tag.from_tags_json(session, tags, language, cache)` (models.py lines
476-509): resolve an item's tag list to canonical `Tag` rows, returning the
references in input order with in-item duplicates removed. -/
def Tag.from_tags_json (ctx : Ctx) (tags : List TagIn) (language : String) :
    List Nat × Ctx :=
  fromTagsJsonLoop ctx language [] tags

/-- The state grown by the `cls(tag_text=t_name); session.add; session.flush`
path of `Tag.from_tags_json`, before the translation merge. -/
def createTagCtx (ctx : Ctx) (n : String) : Ctx :=
  { ctx with
    heap := ctx.heap ++ [⟨ctx.db.nextTagId, n, []⟩],
    db := { ctx.db with
      sessionTags := ctx.db.sessionTags ++ [ctx.heap.length],
      nextTagId := ctx.db.nextTagId + 1 } }

/-- The names resolved by the `for` loop of `Tag.from_tags_json`, in
processing order: first occurrences only, relative to the `_tags` seen-set.
-/
def dedupFirst (seen : List String) : List TagIn → List String
  | [] => []
  | t :: rest =>
    if t.name ∈ seen then dedupFirst seen rest
    else t.name :: dedupFirst (t.name :: seen) rest

/-- `WorksImageURLs.from_works_json(session, works_json_info)` (models.py
lines 387-427), called unconditionally by `Works.from_json` (line 143):
`works_json_info['page_count']` is subscripted first (line 393); with
`page_count > 1` and a non-empty `meta_pages`, one row per page is built
from each page's `image_urls` block; with `page_count == 1` and a truthy
`meta_single_page`, one row for page 0 is built from the top-level
`image_urls` block plus the single page's `original_image_url`; otherwise
no row.  The rows are returned for the `kv['image_urls']` relationship —
with the default `save_to_session=False` they reach the
`works_image_urls` table only through that cascade — and the
resident-row merge `get_by_id` performs on that satellite table is not
tracked here, as no claim observes it. -/
def WorksImageURLs.from_works_json (j : WorksJson) : List WorksImageURLs :=
  if j.page_count > 1 && !j.meta_pages.isEmpty then
    j.meta_pages.enum.map (fun pu =>
      ⟨j.id, pu.1, pu.2.image_urls.square_medium, pu.2.image_urls.medium,
       pu.2.image_urls.large, pu.2.image_urls.original⟩)
  else if j.page_count == 1 && j.meta_single_page.isSome then
    [⟨j.id, 0, j.image_urls.square_medium, j.image_urls.medium,
      j.image_urls.large, j.meta_single_page.getD ""⟩]
  else []

/-- The `_bookmark_rate` computation of `Works.from_json` (models.py lines
131, 136-137): only when both counts are truthy, the rate is
`round(total_bookmarks / total_view, 5)`. -/
def worksBookmarkRate (total_bookmarks total_view : Option Nat) : Option ℚ :=
  if truthyNat total_bookmarks && truthyNat total_view then
    some (pyRound5 ((total_bookmarks.getD 0 : ℚ) / (total_view.getD 0 : ℚ)))
  else none

/-- The `kv` dict of `Works.from_json` (models.py lines 145-158) applied to
a row by `dict_setattr` (or, on the blank row, by `cls(**kv)`): every key
present in `kv` is assigned; `caption` is only in `kv` when the incoming
caption is truthy (line 157), so it is preserved otherwise. -/
def worksKvMerge (j : WorksJson) (r : Works) : Works :=
  { r with
    works_id := j.id,
    author_id := j.user_id,
    works_type := j.works_type,
    title := j.title,
    page_count := some j.page_count,
    total_views := j.total_view,
    total_bookmarks := j.total_bookmarks,
    is_bookmarked := j.is_bookmarked,
    bookmark_rate := worksBookmarkRate j.total_bookmarks j.total_view,
    create_date := j.create_date,
    caption := if truthyStr j.caption then j.caption else r.caption }

/-- A freshly constructed `Works()` object before `kv` is applied: every
column `None`, with the `insert_date` column default filled at insert. -/
def blankWorks (now : Nat) : Works :=
  ⟨0, 0, none, none, none, none, none, none, none, none, none, now, none⟩

/-- `Works.from_json(session, json_info, language, tags_cache)` (models.py
lines 119-172): derive `_caption`, `_bookmark_rate`, `_tags` and
`_create_date`, build `kv`, then upsert by `works_id` — query by natural
key; if absent construct `cls(**kv)` and `session.add`; else
`dict_setattr(w, kv)` on the resident row.  The unconditional image-URL
stage (line 143) runs before the upsert — its mandatory key accesses are
reflected in the `WorksJson` type — and, like the `ugoira` satellite, it
does not touch the tables modelled here (separate tables keyed by
`works_id`, modelled through their own entry points). -/
def Works.from_json (ctx : Ctx) (j : WorksJson) (language : String)
    (now : Nat) : Works × Ctx :=
  let ctx1 := if truthyList j.tags then (Tag.from_tags_json ctx j.tags language).2
              else ctx
  let _image_urls := WorksImageURLs.from_works_json j
  match ctx1.db.works.find? (fun r => r.works_id == j.id) with
  | none =>
    let w := worksKvMerge j (blankWorks now)
    (w, { ctx1 with db := { ctx1.db with works := ctx1.db.works ++ [w] } })
  | some w =>
    (worksKvMerge j w,
     { ctx1 with db := { ctx1.db with
        works := listUpdateFirst (fun r => r.works_id == j.id) (worksKvMerge j)
          ctx1.db.works } })

/-- The `kv` dict of `User.from_json` (models.py lines 229-235) applied by
`dict_setattr` / `cls(**kv)`.  The `detial` key is the one-to-one
`users_details` satellite, upserted by `UserDetail.from_user_json`. -/
def userKvMerge (j : UserJson) (r : User) : User :=
  { r with
    user_id := j.user_id,
    name := j.name,
    account := j.account,
    is_followed := j.is_followed }

/-- The `kv` dict of `UserDetail.from_user_json` (models.py lines 275-294)
applied by `dict_setattr` / `cls(**kv)`. -/
def userDetailKvMerge (j : UserJson) (r : UserDetail) : UserDetail :=
  { r with
    user_id := j.user_id,
    total_illusts := j.total_illusts,
    total_manga := j.total_manga,
    total_novels := j.total_novels,
    total_illust_bookmarks_public := j.total_illust_bookmarks_public,
    total_follow_users := j.total_follow_users,
    avatar_url := j.avatar_url,
    background_url := j.background_url,
    comment := j.comment }

/-- `UserDetail.from_user_json` (models.py lines 270-303): upsert the
one-to-one detail row by `user_id`.  A newly constructed row reaches the
table through the `detial` relationship cascade of the owning `User`
upsert; this is modelled as a direct insert. -/
def UserDetail.from_user_json (details : List UserDetail) (j : UserJson) :
    UserDetail × List UserDetail :=
  match details.find? (fun r => r.user_id == j.user_id) with
  | none =>
    let d := userDetailKvMerge j
      ⟨0, 0, 0, 0, 0, 0, "", "", ""⟩
    (d, details ++ [d])
  | some d =>
    (userDetailKvMerge j d,
     listUpdateFirst (fun r => r.user_id == j.user_id) (userDetailKvMerge j) details)

/-- `User.from_json(session, json_info)` (models.py lines 227-244): upsert
the detail satellite, then upsert the user by `user_id` — query by natural
key; if absent construct and `session.add`; else `dict_setattr(u, kv)`. -/
def User.from_json (ctx : Ctx) (j : UserJson) (now : Nat) : User × Ctx :=
  let details := (UserDetail.from_user_json ctx.db.userDetails j).2
  match ctx.db.users.find? (fun r => r.user_id == j.user_id) with
  | none =>
    let u := userKvMerge j ⟨ctx.db.nextUserLocalId, 0, "", "", false, now⟩
    (u, { ctx with db := { ctx.db with
            users := ctx.db.users ++ [u],
            nextUserLocalId := ctx.db.nextUserLocalId + 1,
            userDetails := details } })
  | some u =>
    (userKvMerge j u,
     { ctx with db := { ctx.db with
        users := listUpdateFirst (fun r => r.user_id == j.user_id) (userKvMerge j)
          ctx.db.users,
        userDetails := details } })

/-- `WorksLocal.create_if_not_exist(session, works_id)` (models.py lines
197-207): query the insertion-order table by `works_id`; only when absent,
construct a row and `session.add` it (its auto-increment `local_id` is
assigned by the database). -/
def WorksLocal.create_if_not_exist (db : SessDb) (works_id : Nat) :
    WorksLocal × SessDb :=
  match db.worksLocal.find? (fun r => r.works_id == works_id) with
  | some w => (w, db)
  | none =>
    let w : WorksLocal := ⟨db.nextWorksLocalId, works_id⟩
    (w, { db with worksLocal := db.worksLocal ++ [w],
                  nextWorksLocalId := db.nextWorksLocalId + 1 })

/-- `' '.join(map(str, _delay))` and `.split()` live on character lists.
`str` of a non-negative Python int: its decimal digits. -/
def natToChars (n : Nat) : List Char :=
  if n = 0 then ['0'] else ((Nat.digits 10 n).reverse).map Nat.digitChar

/-- `str` of a Python int: a leading `-` for negative values. -/
def intToChars (z : Int) : List Char :=
  if z < 0 then '-' :: natToChars z.natAbs else natToChars z.toNat

/-- `int` of a digit character. -/
def charToDigit (c : Char) : Nat := c.toNat - '0'.toNat

/-- `int` of a string of decimal digits. -/
def charsToNat (l : List Char) : Nat :=
  Nat.ofDigits 10 ((l.map charToDigit).reverse)

/-- `int` of a decimal string with an optional leading `-`. -/
def charsToInt : List Char → Int
  | [] => 0
  | c :: cs => if c = '-' then -(charsToNat cs : Int) else (charsToNat (c :: cs) : Int)

/-- Python whitespace, as recognised by `str.split()` with no argument. -/
def isPySpace (c : Char) : Bool :=
  c == ' ' || c == '\t' || c == '\n' || c == '\r' || c == '\x0b' || c == '\x0c'

/-- `str.split()` with no argument: split on runs of whitespace, discarding
empty pieces. -/
def splitWs (l : List Char) : List (List Char) :=
  match l with
  | [] => []
  | c :: cs =>
    if isPySpace c then splitWs cs
    else (c :: cs.takeWhile (fun x => !isPySpace x)) ::
      splitWs (cs.dropWhile (fun x => !isPySpace x))
termination_by l.length
decreasing_by
  · simp only [List.length_cons]; omega
  · simp only [List.length_cons]
    have : (List.dropWhile (fun x => !isPySpace x) cs).length ≤ cs.length := by
      induction cs with
      | nil => simp [List.dropWhile]
      | cons d ds ih =>
        by_cases h : (!isPySpace d) = true
        · simp only [List.dropWhile, h]
          have := ih
          simp only [List.length_cons]
          omega
        · simp only [List.dropWhile, h]; simp
    omega

/-- `sep.join(pieces)` for a one-character separator. -/
def joinSep (sep : Char) : List (List Char) → List Char
  | [] => []
  | [t] => t
  | t :: ts => t ++ sep :: joinSep sep ts

/-- `' '.join(map(str, delays))` (models.py line 339). -/
def encodeDelays (delays : List Int) : List Char :=
  joinSep ' ' (delays.map intToChars)

/-- `list(map(int, delay_text.split()))` (models.py line 325). -/
def decodeDelays (text : List Char) : List Int :=
  (splitWs text).map charsToInt

/-- The `Ugoira.delay` property (models.py lines 322-326): if the memoized
`_delay` is falsy (the class default `[]`), decode `delay_text`; return the
memoized list otherwise. -/
def Ugoira.delay (u : Ugoira) : List Int :=
  if u.memo_delay.isEmpty then decodeDelays u.delay_text else u.memo_delay

/-- `Ugoira.from_json(session, works_id, ugoira_json, save_to_session)`
(models.py lines 328-351): build `kv` with the space-joined `delay_text`
and the memoized `_delay`, then upsert by `works_id` (a new row is only
added to the session when `save_to_session` is set; it otherwise reaches
the table through the `ugoira` relationship cascade of the owning work). -/
def Ugoira.from_json (db : SessDb) (works_id : Nat) (uj : UgoiraJson)
    (save_to_session : Bool) : Ugoira × SessDb :=
  let delays := uj.frames
  let kvMerge : Ugoira → Ugoira := fun u =>
    { u with works_id := works_id, zip_url := uj.zip_url,
             delay_text := encodeDelays delays, memo_delay := delays }
  match db.ugoiras.find? (fun r => r.works_id == works_id) with
  | none =>
    let ug := kvMerge ⟨0, [], "", []⟩
    (ug, if save_to_session then { db with ugoiras := db.ugoiras ++ [ug] } else db)
  | some ug =>
    (kvMerge ug,
     { db with ugoiras := listUpdateFirst (fun r => r.works_id == works_id) kvMerge db.ugoiras })

/-- Process-wide state: the Python object heap together with the module's
single default `tags_cache={}` dict of `Works.from_json`, evaluated once at
function definition and shared by every call that omits the argument. -/
structure Proc where
  heap : List Tag
  defaultCache : TagsCache
deriving DecidableEq, Repr

/-- A call `Works.from_json(session, json, language)` that omits
`tags_cache` (models.py line 125): it uses — and mutates in place — the
shared default dict. -/
def worksFromJsonDefaultCache (p : Proc) (db : SessDb) (j : WorksJson)
    (language : String) (now : Nat) : Works × Proc × SessDb :=
  let wc := Works.from_json ⟨p.heap, db, p.defaultCache⟩ j language now
  (wc.1, ⟨wc.2.heap, wc.2.cache⟩, wc.2.db)

/-- Operations a caller may perform on a session obtained from
`DatabaseHelper.get_session`. -/
inductive DbOp : Type
  | add (row : Nat)
  | flush
  | commit
  | rollback
deriving DecidableEq, Repr

/-- The state of one SQLAlchemy session over a persisted store: rows staged
by `add` but not flushed, rows written by `flush` inside the open
transaction, and the committed store itself. -/
structure SessionState where
  pending : List Nat
  txn : List Nat
  committed : List Nat
deriving DecidableEq, Repr

/-- The session monkey-patching of `DatabaseHelper.get_session`
(models.py lines 551-569): when `readonly` is set, `flush` and `commit`
are replaced by `no_write`, a function that does nothing and raises
nothing, so staged modifications are silently dropped instead of being
persisted or rejected. -/
def applyDbOp (readonly : Bool) (s : SessionState) : DbOp → SessionState
  | .add row => { s with pending := s.pending ++ [row] }
  | .flush =>
    if readonly then s
    else { s with pending := [], txn := s.txn ++ s.pending }
  | .commit =>
    if readonly then s
    else { pending := [], txn := [],
           committed := s.committed ++ s.txn ++ s.pending }
  | .rollback => { s with pending := [], txn := [] }

/-- Run a sequence of operations through one session. -/
def runSession (readonly : Bool) (ops : List DbOp) (s : SessionState) :
    SessionState :=
  ops.foldl (applyDbOp readonly) s

/-- The default of the `readonly` parameter of
`DatabaseHelper.get_session` (models.py line 552) — the dashboard's
websocket tag-query path calls `self.db.get_session()` with no argument
(webserver.py line 54). -/
def getSessionReadonlyDefault : Bool := true

/-- The cache contract documented at models.py line 489
(`cache: {tag_text: Tag()}`): keys are held once, and each key maps to a
`Tag` object whose `tag_text` is that key. -/
def cacheWF (heap : List Tag) (c : TagsCache) : Prop :=
  (c.map (·.1)).Nodup ∧ ∀ p ∈ c, p.2 < heap.length ∧ tagTextAt heap p.2 = p.1

/-- Every tag reference recorded in the session's `tags` table is a live
object. -/
def sessTagsWF (heap : List Tag) (db : SessDb) : Prop :=
  ∀ r ∈ db.sessionTags, r < heap.length

/-- Well-formedness of a tag-resolution state. -/
def ctxWF (ctx : Ctx) : Prop :=
  cacheWF ctx.heap ctx.cache ∧ sessTagsWF ctx.heap ctx.db

/-- A `translation` collection holds at most one row per language. -/
def translationUnique (trs : List TagTranslation) : Prop :=
  ∀ l, (trs.filter (fun tt => tt.language == l)).length ≤ 1

/-- A sequence of translation-merge steps, as produced by a sequence of tag
resolutions touching one tag. -/
def mergeTranslationSeq (trs : List TagTranslation)
    (seq : List (Nat × String × String)) : List TagTranslation :=
  seq.foldl (fun acc x => mergeTranslation acc x.1 x.2.1 x.2.2) trs

/-- A fresh, empty session. -/
def emptyDb : SessDb := ⟨[], 1, [], [], 1, [], [], 1, []⟩

/-- Example works JSON (id 1 by author 9) carrying every optional scalar,
used by witnesses below. -/
def exJson : WorksJson :=
  ⟨1, 9, some "illust", some "t", 1, [], some "o.png", ⟨"s", "m", "l", "x"⟩,
   some 10, some 2, some false,
   some "hello", some 5, [⟨"cat", some "Cat"⟩, ⟨"dog", none⟩, ⟨"cat", some "Cat"⟩]⟩

/-- Example re-ingestion JSON for the same work with every `.get`-read
field absent (`None`) and `page_count = 0`: the real `Works.from_json`
completes on it, since with a zero page count the image-URL stage touches
no meta block (lines 393/408 short-circuit) and produces no row, so the
upsert merge is reached. -/
def exJsonBare : WorksJson :=
  ⟨1, 9, none, none, 0, [], none, ⟨"", "", "", ""⟩, none, none, none, none,
   none, []⟩

/-- Example user JSON for witnesses. -/
def exUserJson : UserJson := ⟨9, "alice", "alice_a", true, 3, 1, 0, 7, 2, "a.png", "b.png", "hi"⟩

/-- A resident work row with non-empty scalars, used to exhibit the merge
overwriting behaviour. -/
def c2Row : Works :=
  ⟨1, 9, some "illust", some "t", some 3, some 5, some 2, some true,
   some false, some ((2 : ℚ)/5), some 11, 50, some "cap"⟩

/-- A state whose works table already holds `c2Row`. -/
def c2Ctx : Ctx := ⟨[], { emptyDb with works := [c2Row] }, []⟩

/-- The works JSON used by the shared-default-cache counterexample: one
work with one tag named `a`. -/
def c8Json : WorksJson :=
  ⟨1, 9, some "illust", some "t", 1, [], none, ⟨"", "", "", ""⟩,
   some 10, some 2, some false, none,
   some 5, [⟨"a", none⟩]⟩

/-- Scenario A for the default-cache counterexample: a first cacheless call
on session 1 runs to completion, then a second cacheless call ingests the
same JSON into a fresh session 2.  The result is session 2's state. -/
def c8SessionTwoAfterRunOne : SessDb :=
  let r1 := worksFromJsonDefaultCache ⟨[], []⟩ emptyDb c8Json "en" 100
  (worksFromJsonDefaultCache r1.2.1 emptyDb c8Json "en" 200).2.2

/-- Scenario B: the second call alone, against the pristine module state —
what the second call would see if no cached tag state were shared. -/
def c8SessionTwoFresh : SessDb :=
  (worksFromJsonDefaultCache ⟨[], []⟩ emptyDb c8Json "en" 200).2.2

theorem mapReplace_comp_self (k : String) (v : Nat) :
    ((fun p : String × Nat => p.1 == k) ∘ fun p => if p.1 == k then (k, v) else p) =
      fun p : String × Nat => p.1 == k := by
  funext p
  simp only [Function.comp_apply]
  by_cases hp : p.1 = k
  · simp [hp]
  · simp [hp]

theorem mapReplace_comp_ne (k k' : String) (v : Nat) (_h : k' ≠ k) :
    ((fun p : String × Nat => p.1 == k') ∘ fun p => if p.1 == k then (k, v) else p) =
      fun p : String × Nat => p.1 == k' := by
  funext p
  simp only [Function.comp_apply]
  by_cases hp : p.1 = k
  · simp [hp]
  · simp [hp]

theorem cacheLookup_cacheInsert_self (c : TagsCache) (k : String) (v : Nat) :
    cacheLookup (cacheInsert c k v) k = some v := by
  unfold cacheInsert
  by_cases h : (c.find? (fun p => p.1 == k)).isSome
  · rw [if_pos h, cacheLookup, List.find?_map, mapReplace_comp_self]
    rcases hf : c.find? (fun p => p.1 == k) with _ | p
    · rw [hf] at h; simp at h
    · have hp := List.find?_some hf
      have hpk : p.1 = k := by simpa using hp
      rw [hf]
      simp [hpk]
  · rw [if_neg h, cacheLookup, List.find?_append]
    rcases hf : c.find? (fun p => p.1 == k) with _ | p
    · rw [hf, Option.none_or]
      simp [List.find?]
    · rw [hf] at h; simp at h

theorem cacheLookup_cacheInsert_ne (c : TagsCache) (k k' : String) (v : Nat)
    (h : k' ≠ k) : cacheLookup (cacheInsert c k v) k' = cacheLookup c k' := by
  unfold cacheInsert
  by_cases hs : (c.find? (fun p => p.1 == k)).isSome
  · rw [if_pos hs, cacheLookup, List.find?_map, mapReplace_comp_ne k k' v h,
      cacheLookup]
    rcases hf : c.find? (fun p => p.1 == k') with _ | q
    · simp [hf]
    · have hq := List.find?_some hf
      have hqk : q.1 = k' := by simpa using hq
      rw [hf]
      simp only [Option.map_map, Option.map_some]
      have : (fun x : String × Nat => x.2) ∘ (fun p => if p.1 == k then (k, v) else p) = fun x => ((fun p : String × Nat => if p.1 == k then (k, v) else p) x).2 := rfl
      simp [hqk, fun hkk : k' = k => h hkk]
  · rw [if_neg hs, cacheLookup, List.find?_append, cacheLookup]
    rcases hf : c.find? (fun p => p.1 == k') with _ | q
    · rw [hf, Option.none_or,
        List.find?_cons_of_neg _ (by simp; exact fun hkk => h hkk.symm)]
      rfl
    · rw [hf]
      rfl

theorem length_listUpdateFirst {α : Type} (p : α → Bool) (f : α → α) (l : List α) :
    (listUpdateFirst p f l).length = l.length := by
  induction l with
  | nil => rfl
  | cons x xs ih =>
    by_cases h : p x
    · simp [listUpdateFirst, h]
    · simp [listUpdateFirst, h, ih]

theorem listUpdateFirst_of_find?_none {α : Type} (p : α → Bool) (f : α → α)
    (l : List α) (h : l.find? p = none) : listUpdateFirst p f l = l := by
  induction l with
  | nil => rfl
  | cons x xs ih =>
    rcases hx : p x with _ | _
    · rw [List.find?_cons_of_neg xs (by simp [hx])] at h
      simp only [listUpdateFirst, hx, Bool.false_eq_true, if_false]
      rw [ih h]
    · rw [List.find?_cons_of_pos xs hx] at h
      simp at h

theorem find?_listUpdateFirst {α : Type} (p : α → Bool) (f : α → α) (l : List α)
    (hpf : ∀ a, p a = true → p (f a) = true) :
    (listUpdateFirst p f l).find? p = (l.find? p).map f := by
  induction l with
  | nil => rfl
  | cons x xs ih =>
    rcases hx : p x with _ | _
    · simp only [listUpdateFirst, hx, Bool.false_eq_true, if_false]
      rw [List.find?_cons_of_neg _ (by simp [hx]),
        List.find?_cons_of_neg _ (by simp [hx]), ih]
    · simp only [listUpdateFirst, hx, if_true]
      rw [List.find?_cons_of_pos _ (hpf x hx), List.find?_cons_of_pos _ hx]
      rfl

theorem listUpdateFirst_fixpoint {α : Type} (p : α → Bool) (f : α → α) (l : List α)
    (h : ∀ a, l.find? p = some a → f a = a) : listUpdateFirst p f l = l := by
  induction l with
  | nil => rfl
  | cons x xs ih =>
    rcases hx : p x with _ | _
    · simp only [listUpdateFirst, hx, Bool.false_eq_true, if_false,
        List.cons.injEq, true_and]
      refine ih (fun a ha => h a ?_)
      rw [List.find?_cons_of_neg xs (by simp [hx])]
      exact ha
    · have : f x = x := h x (List.find?_cons_of_pos xs hx)
      simp [listUpdateFirst, hx, this]

theorem charToDigit_digitChar : ∀ d, d < 10 → charToDigit (Nat.digitChar d) = d := by
  decide

theorem digitChar_not_space : ∀ d, d < 10 → isPySpace (Nat.digitChar d) = false := by
  decide

theorem digitChar_ne_dash : ∀ d, d < 10 → Nat.digitChar d ≠ '-' := by
  decide

theorem natToChars_ne_nil (n : Nat) : natToChars n ≠ [] := by
  unfold natToChars
  by_cases h : n = 0
  · simp [h]
  · simp only [h, if_false]
    have : Nat.digits 10 n ≠ [] := Nat.digits_ne_nil_iff_ne_zero.mpr h
    simp [this]

theorem natToChars_all_digits (n : Nat) :
    ∀ c ∈ natToChars n, ∃ d, d < 10 ∧ c = Nat.digitChar d := by
  unfold natToChars
  by_cases h : n = 0
  · simp only [h, if_true]
    intro c hc
    simp only [List.mem_singleton] at hc
    exact ⟨0, by norm_num, by simp [hc]; rfl⟩
  · simp only [h, if_false]
    intro c hc
    obtain ⟨d, hd, rfl⟩ := List.mem_map.mp hc
    refine ⟨d, ?_, rfl⟩
    exact Nat.digits_lt_base (by norm_num) (List.mem_reverse.mp hd)

theorem charsToNat_natToChars (n : Nat) : charsToNat (natToChars n) = n := by
  unfold charsToNat natToChars
  by_cases h : n = 0
  · simp [h, charToDigit, Nat.ofDigits]
  · simp only [h, if_false]
    rw [List.map_map]
    have hmap : ((Nat.digits 10 n).reverse.map (charToDigit ∘ Nat.digitChar)) =
        (Nat.digits 10 n).reverse.map id := by
      apply List.map_congr_left
      intro d hd
      have : d < 10 := Nat.digits_lt_base (by norm_num) (List.mem_reverse.mp hd)
      simp only [Function.comp_apply, id_eq]
      exact charToDigit_digitChar d this
    rw [hmap, List.map_id, List.reverse_reverse, Nat.ofDigits_digits]

theorem intToChars_ne_nil (z : Int) : intToChars z ≠ [] := by
  unfold intToChars
  by_cases h : z < 0
  · simp [h]
  · simp only [h, if_false]
    exact natToChars_ne_nil _

theorem intToChars_no_space (z : Int) : ∀ c ∈ intToChars z, isPySpace c = false := by
  unfold intToChars
  intro c hc
  by_cases h : z < 0
  · rw [if_pos h] at hc
    rcases List.mem_cons.mp hc with hd | ht
    · subst hd; rfl
    · obtain ⟨d, hd, rfl⟩ := natToChars_all_digits _ c ht
      exact digitChar_not_space d hd
  · rw [if_neg h] at hc
    obtain ⟨d, hd, rfl⟩ := natToChars_all_digits _ c hc
    exact digitChar_not_space d hd

theorem charsToInt_intToChars (z : Int) : charsToInt (intToChars z) = z := by
  unfold intToChars
  by_cases hz : z < 0
  · rw [if_pos hz]
    show charsToInt ('-' :: natToChars z.natAbs) = z
    simp only [charsToInt, if_pos, reduceIte, charsToNat_natToChars]
    omega
  · rw [if_neg hz]
    rcases hne : natToChars z.toNat with _ | ⟨c, cs⟩
    · exact absurd hne (natToChars_ne_nil _)
    · have hcmem : c ∈ natToChars z.toNat := by rw [hne]; exact List.mem_cons_self c cs
      obtain ⟨d, hd, rfl⟩ := natToChars_all_digits _ c hcmem
      show charsToInt (Nat.digitChar d :: cs) = z
      simp only [charsToInt]
      rw [if_neg (digitChar_ne_dash d hd), ← hne, charsToNat_natToChars]
      omega

theorem takeWhile_append_all (p : Char → Bool) (t l : List Char)
    (h : ∀ c ∈ t, p c = true) :
    (t ++ l).takeWhile p = t ++ l.takeWhile p := by
  induction t with
  | nil => simp
  | cons c cs ih =>
    have hc := h c (List.mem_cons_self c cs)
    simp [List.takeWhile_cons, hc, ih (fun x hx => h x (List.mem_cons_of_mem c hx))]

theorem dropWhile_append_all (p : Char → Bool) (t l : List Char)
    (h : ∀ c ∈ t, p c = true) :
    (t ++ l).dropWhile p = l.dropWhile p := by
  induction t with
  | nil => simp
  | cons c cs ih =>
    have hc := h c (List.mem_cons_self c cs)
    simp [List.dropWhile_cons, hc, ih (fun x hx => h x (List.mem_cons_of_mem c hx))]

theorem takeWhile_all (p : Char → Bool) (t : List Char)
    (h : ∀ c ∈ t, p c = true) : t.takeWhile p = t := by
  have := takeWhile_append_all p t [] h
  simpa using this

theorem dropWhile_all (p : Char → Bool) (t : List Char)
    (h : ∀ c ∈ t, p c = true) : t.dropWhile p = [] := by
  have := dropWhile_append_all p t [] h
  simpa using this

theorem splitWs_joinSep (ts : List (List Char))
    (h : ∀ t ∈ ts, t ≠ [] ∧ ∀ c ∈ t, isPySpace c = false) :
    splitWs (joinSep ' ' ts) = ts := by
  induction ts with
  | nil => simp [splitWs, joinSep]
  | cons t ts ih =>
    obtain ⟨hne, hns⟩ := h t (List.mem_cons_self t ts)
    rcases t with _ | ⟨c, cs⟩
    · exact absurd rfl hne
    have hc : isPySpace c = false := hns c (List.mem_cons_self c cs)
    have hcs : ∀ x ∈ cs, (fun x => !isPySpace x) x = true := by
      intro x hx
      simp [hns x (List.mem_cons_of_mem c hx)]
    cases ts with
    | nil =>
      show splitWs (c :: cs) = [c :: cs]
      rw [splitWs, if_neg (by simp [hc]), takeWhile_all _ cs hcs,
        dropWhile_all _ cs hcs, splitWs]
    | cons t2 ts2 =>
      show splitWs ((c :: cs) ++ ' ' :: joinSep ' ' (t2 :: ts2)) = (c :: cs) :: t2 :: ts2
      rw [List.cons_append, splitWs, if_neg (by simp [hc]),
        takeWhile_append_all _ cs _ hcs, dropWhile_append_all _ cs _ hcs]
      have hsp : (' ' :: joinSep ' ' (t2 :: ts2)).takeWhile (fun x => !isPySpace x) = [] := by
        simp [List.takeWhile_cons, isPySpace]
      have hsp2 : (' ' :: joinSep ' ' (t2 :: ts2)).dropWhile (fun x => !isPySpace x) =
          ' ' :: joinSep ' ' (t2 :: ts2) := by
        simp [List.dropWhile_cons, isPySpace]
      rw [hsp, hsp2, List.append_nil, splitWs, if_pos (by simp [isPySpace]),
        ih (fun t ht => h t (List.mem_cons_of_mem _ ht))]

theorem decodeDelays_encodeDelays (delays : List Int) :
    decodeDelays (encodeDelays delays) = delays := by
  unfold decodeDelays encodeDelays
  rw [splitWs_joinSep]
  · rw [List.map_map]
    have : delays.map (charsToInt ∘ intToChars) = delays.map id := by
      apply List.map_congr_left
      intro z _
      simp only [Function.comp_apply, id_eq]
      exact charsToInt_intToChars z
    rw [this, List.map_id]
  · intro t ht
    obtain ⟨z, _, rfl⟩ := List.mem_map.mp ht
    exact ⟨intToChars_ne_nil z, intToChars_no_space z⟩

theorem filter_map_language (trs : List TagTranslation) (lang txt l : String) :
    ((trs.map (fun tt =>
        if tt.language == lang then { tt with translation_text := txt } else tt)).filter
      (fun tt => tt.language == l)) =
    (trs.filter (fun tt => tt.language == l)).map (fun tt =>
        if tt.language == lang then { tt with translation_text := txt } else tt) := by
  rw [List.filter_map]
  congr 1
  apply List.filter_congr
  intro tt _
  by_cases h : tt.language = lang <;> simp [h]

theorem mergeTranslation_unique (trs : List TagTranslation) (tid : Nat)
    (lang txt : String) (h : translationUnique trs) :
    translationUnique (mergeTranslation trs tid lang txt) := by
  unfold mergeTranslation
  by_cases hany : trs.any (fun tt => tt.language == lang) = true
  · simp only [hany, if_true]
    intro l
    rw [filter_map_language, List.length_map]
    exact h l
  · simp only [hany, if_false, Bool.false_eq_true]
    intro l
    rw [List.filter_append]
    by_cases hl : lang = l
    · have hnil : trs.filter (fun tt => tt.language == l) = [] := by
        rw [List.filter_eq_nil_iff]
        intro tt htt
        have := List.any_eq_true.not.mp hany
        push_neg at this
        have h2 := this tt htt
        subst hl
        simpa using h2
      simp [hnil, List.filter, hl]
    · have : ((⟨tid, lang, txt⟩ : TagTranslation).language == l) = false := by
        simpa using hl
      simp only [List.filter_cons, this, Bool.false_eq_true, if_false,
        List.filter_nil, List.append_nil]
      exact h l

theorem mergeTranslation_lookup (trs : List TagTranslation) (tid : Nat)
    (lang txt : String) (h : translationUnique trs) :
    ∃ tid', (mergeTranslation trs tid lang txt).filter
      (fun tt => tt.language == lang) = [⟨tid', lang, txt⟩] := by
  unfold mergeTranslation
  by_cases hany : trs.any (fun tt => tt.language == lang) = true
  · simp only [hany, if_true]
    obtain ⟨x, hx, hxl⟩ := List.any_eq_true.mp hany
    have hmemf : x ∈ trs.filter (fun tt => tt.language == lang) :=
      List.mem_filter.mpr ⟨hx, hxl⟩
    have hlen : (trs.filter (fun tt => tt.language == lang)).length = 1 := by
      have h1 := h lang
      have h2 : 0 < (trs.filter (fun tt => tt.language == lang)).length :=
        List.length_pos.mpr (List.ne_nil_of_mem hmemf)
      omega
    obtain ⟨a, ha⟩ := List.length_eq_one.mp hlen
    have hamem : a ∈ trs.filter (fun tt => tt.language == lang) := by
      rw [ha]; exact List.mem_singleton.mpr rfl
    have hal : a.language = lang := by
      have := (List.mem_filter.mp hamem).2
      simpa using this
    refine ⟨a.tag_id, ?_⟩
    rw [filter_map_language, ha]
    simp [hal]
  · simp only [hany, if_false, Bool.false_eq_true]
    refine ⟨tid, ?_⟩
    rw [List.filter_append]
    have hnil : trs.filter (fun tt => tt.language == lang) = [] := by
      rw [List.filter_eq_nil_iff]
      intro tt htt
      have := List.any_eq_true.not.mp hany
      push_neg at this
      simpa using this tt htt
    simp [hnil, List.filter]

theorem mergeTranslation_frame (trs : List TagTranslation) (tid : Nat)
    (lang txt l : String) (hl : l ≠ lang) :
    (mergeTranslation trs tid lang txt).filter (fun tt => tt.language == l) =
      trs.filter (fun tt => tt.language == l) := by
  unfold mergeTranslation
  by_cases hany : trs.any (fun tt => tt.language == lang) = true
  · simp only [hany, if_true]
    rw [filter_map_language]
    have hcong : List.map (fun tt =>
        if tt.language == lang then { tt with translation_text := txt } else tt)
        (trs.filter (fun tt => tt.language == l)) =
        List.map id (trs.filter (fun tt => tt.language == l)) := by
      apply List.map_congr_left
      intro tt htt
      have httl : tt.language = l := by simpa using (List.mem_filter.mp htt).2
      rw [id_eq, if_neg (by simp [httl]; exact hl)]
    rw [hcong, List.map_id]
  · simp only [hany, if_false, Bool.false_eq_true]
    rw [List.filter_append]
    have : ((⟨tid, lang, txt⟩ : TagTranslation).language == l) = false := by
      simp only [beq_eq_false_iff_ne, ne_eq]
      exact fun hk => hl hk.symm
    simp [List.filter_cons, this]

theorem mergeTranslationSeq_unique (trs : List TagTranslation)
    (seq : List (Nat × String × String)) (h : translationUnique trs) :
    translationUnique (mergeTranslationSeq trs seq) := by
  induction seq generalizing trs with
  | nil => exact h
  | cons x xs ih =>
    exact ih _ (mergeTranslation_unique trs x.1 x.2.1 x.2.2 h)

/-- C5: when resolving a tag that carries a translated name, an existing
translation row for the same (tag, language) pair has its text overwritten,
otherwise exactly one new `TagTranslation` row for that pair is appended;
consequently the merged language holds the latest text, other languages are
untouched, and any sequence of resolutions starting from a per-language
unique collection leaves at most one translation per (tag, language). -/
theorem c5_translation_merge (trs : List TagTranslation) (tid : Nat)
    (lang txt : String) (h : translationUnique trs) :
    translationUnique (mergeTranslation trs tid lang txt)
    ∧ (∃ tid', (mergeTranslation trs tid lang txt).filter
        (fun tt => tt.language == lang) = [⟨tid', lang, txt⟩])
    ∧ (∀ l, l ≠ lang → (mergeTranslation trs tid lang txt).filter
        (fun tt => tt.language == l) = trs.filter (fun tt => tt.language == l))
    ∧ ((trs.any (fun tt => tt.language == lang) = false) →
        mergeTranslation trs tid lang txt = trs ++ [⟨tid, lang, txt⟩])
    ∧ ∀ seq, translationUnique (mergeTranslationSeq trs seq) :=
  ⟨mergeTranslation_unique trs tid lang txt h,
   mergeTranslation_lookup trs tid lang txt h,
   fun l hl => mergeTranslation_frame trs tid lang txt l hl,
   fun hany => by simp [mergeTranslation, hany],
   fun seq => mergeTranslationSeq_unique trs seq h⟩

theorem c5_translation_merge_witness :
    mergeTranslation ([] : List TagTranslation) 2 "en" "new" =
      [] ++ [⟨2, "en", "new"⟩] :=
  (c5_translation_merge [] 2 "en" "new"
    (fun l => by simp [translationUnique])).2.2.2.1 (by simp)

theorem ugoira_delay_kv (u : Ugoira) (wid : Nat) (uj : UgoiraJson) :
    Ugoira.delay ({ u with
      works_id := wid, zip_url := uj.zip_url,
      delay_text := encodeDelays uj.frames, memo_delay := uj.frames }) = uj.frames := by
  unfold Ugoira.delay
  rcases hf : uj.frames with _ | ⟨d, ds⟩
  · simp only [List.isEmpty_nil, if_true]
    have := decodeDelays_encodeDelays uj.frames
    rw [hf] at this
    exact this
  · simp

/-- C7: for every list of integer frame delays, including the empty list,
encoding it to the space-joined `delay_text` (as `Ugoira.from_json` does)
and then decoding through the `Ugoira.delay` property reproduces the
original list exactly — both on the object `from_json` returns (whose
`_delay` is memoized) and on a freshly loaded row whose `_delay` still is
the class default `[]`. -/
theorem c7_delay_round_trip (db : SessDb) (works_id : Nat) (uj : UgoiraJson)
    (save : Bool) (wid2 : Nat) (zu : String) :
    Ugoira.delay (Ugoira.from_json db works_id uj save).1 = uj.frames
    ∧ ∀ delays : List Int,
        Ugoira.delay ⟨wid2, encodeDelays delays, zu, []⟩ = delays := by
  constructor
  · unfold Ugoira.from_json
    rcases hf : db.ugoiras.find? (fun r => r.works_id == works_id) with _ | u
    · simp only [hf]
      exact ugoira_delay_kv ⟨0, [], "", []⟩ works_id uj
    · simp only [hf]
      exact ugoira_delay_kv u works_id uj
  · intro delays
    show Ugoira.delay ⟨wid2, encodeDelays delays, zu, []⟩ = delays
    unfold Ugoira.delay
    simp only [List.isEmpty_nil, if_true]
    exact decodeDelays_encodeDelays delays

theorem applyDbOp_readonly_committed (s : SessionState) (op : DbOp) :
    (applyDbOp true s op).committed = s.committed := by
  cases op <;> simp [applyDbOp]

/-- C9: for a session obtained from `DatabaseHelper.get_session` with
`readonly=True` — the default, and what the dashboard's websocket tag-query
path uses — `flush` and `commit` are no-ops: no sequence of modifications
issued through the session ever changes the committed store (writes are
silently swallowed, never rejected). -/
theorem c9_readonly_session_swallows_writes (ops : List DbOp)
    (pending0 txn0 committed0 : List Nat) :
    (runSession getSessionReadonlyDefault ops ⟨pending0, txn0, committed0⟩).committed
      = committed0
    ∧ getSessionReadonlyDefault = true := by
  refine ⟨?_, rfl⟩
  show (runSession true ops ⟨pending0, txn0, committed0⟩).committed = committed0
  have : ∀ (l : List DbOp) (s : SessionState),
      (runSession true l s).committed = s.committed := by
    intro l
    induction l with
    | nil => intro s; rfl
    | cons op rest ih =>
      intro s
      show (runSession true rest (applyDbOp true s op)).committed = s.committed
      rw [ih (applyDbOp true s op), applyDbOp_readonly_committed]
  exact this ops _

/-- C6: `WorksLocal.create_if_not_exist` creates the insertion-order record
on a work's first sighting (exactly one row, with the next auto-increment
`local_id`), and every later call for the same `works_id` returns the
resident record, adds no row and leaves its `local_id` untouched. -/
theorem c6_works_local_once (db : SessDb) (w : Nat) :
    (WorksLocal.create_if_not_exist (WorksLocal.create_if_not_exist db w).2 w
      = ((WorksLocal.create_if_not_exist db w).1,
         (WorksLocal.create_if_not_exist db w).2))
    ∧ (db.worksLocal.find? (fun r => r.works_id == w) = none →
        (WorksLocal.create_if_not_exist db w).2.worksLocal
          = db.worksLocal ++ [⟨db.nextWorksLocalId, w⟩])
    ∧ (∀ r, db.worksLocal.find? (fun r => r.works_id == w) = some r →
        (WorksLocal.create_if_not_exist db w).1 = r
        ∧ (WorksLocal.create_if_not_exist db w).2 = db)
    ∧ ((db.worksLocal.filter (fun r => r.works_id == w)).length ≤ 1 →
        ((WorksLocal.create_if_not_exist db w).2.worksLocal.filter
          (fun r => r.works_id == w)).length = 1) := by
  refine ⟨?_, ?_, ?_, ?_⟩
  · unfold WorksLocal.create_if_not_exist
    rcases hf : db.worksLocal.find? (fun r => r.works_id == w) with _ | r
    · simp only [hf]
      have hnew : (db.worksLocal ++ [(⟨db.nextWorksLocalId, w⟩ : WorksLocal)]).find?
          (fun r => r.works_id == w) = some ⟨db.nextWorksLocalId, w⟩ := by
        rw [List.find?_append, hf, Option.none_or]
        simp [List.find?]
      simp [hnew]
    · simp [hf]
  · intro hf
    unfold WorksLocal.create_if_not_exist
    rw [hf]
  · intro r hf
    unfold WorksLocal.create_if_not_exist
    rw [hf]
    exact ⟨rfl, rfl⟩
  · intro hle
    unfold WorksLocal.create_if_not_exist
    rcases hf : db.worksLocal.find? (fun r => r.works_id == w) with _ | r
    · have hnil : db.worksLocal.filter (fun r => r.works_id == w) = [] := by
        rw [List.filter_eq_nil_iff]
        intro x hx
        have := List.find?_eq_none.mp hf x hx
        simpa using this
      simp [hf, List.filter_append, hnil, List.filter]
    · have hr := List.find?_some hf
      have hmem : r ∈ db.worksLocal.filter (fun r => r.works_id == w) :=
        List.mem_filter.mpr ⟨List.mem_of_find?_eq_some hf, hr⟩
      have hpos : 0 < (db.worksLocal.filter (fun r => r.works_id == w)).length :=
        List.length_pos.mpr (List.ne_nil_of_mem hmem)
      simp only [hf]
      omega

/-- C6 witness. -/
theorem c6_works_local_once_witness :
    (WorksLocal.create_if_not_exist emptyDb 7).2.worksLocal
      = emptyDb.worksLocal ++ [⟨emptyDb.nextWorksLocalId, 7⟩] :=
  (c6_works_local_once emptyDb 7).2.1 rfl

/-- Both branches of the upsert of `Works.from_json` return the merged
`kv` applied to some base row. -/
theorem works_from_json_first (ctx : Ctx) (j : WorksJson) (language : String)
    (now : Nat) :
    ∃ r0, (Works.from_json ctx j language now).1 = worksKvMerge j r0 := by
  unfold Works.from_json
  rcases hf : (if truthyList j.tags then (Tag.from_tags_json ctx j.tags language).2
      else ctx).db.works.find? (fun r => r.works_id == j.id) with _ | u
  · exact ⟨blankWorks now, by simp [hf]⟩
  · exact ⟨u, by simp [hf]⟩

/-- C4 counterexample: with `total_bookmarks = 0` and `total_view = 100`
both present, the rate is mathematically computable — `round(0/100, 5)` is
`0` — and neither count is missing, yet the code stores `None` instead of
the rounded quotient: a zero count is treated like a missing one. -/
theorem c4_counterexample :
    worksBookmarkRate (some 0) (some 100) = none
    ∧ pyRound5 ((0 : ℚ) / 100) = 0
    ∧ worksBookmarkRate (some 0) (some 100) ≠ some (pyRound5 ((0 : ℚ) / 100)) := by
  refine ⟨rfl, ?_, ?_⟩
  · norm_num [pyRound5, pyRoundInt]
  · intro h
    exact absurd h (by simp [worksBookmarkRate, truthyNat])

/-- C4 amended: the stored `bookmark_rate` equals
`round(total_bookmarks / total_view, 5)` exactly when both counts are
present *and nonzero*; it is `None` when either count is missing — and
also when either count is present but zero.  The third conjunct ties the
derived value to the row `Works.from_json` stores. -/
theorem c4_bookmark_rate_amended (tb tv : Option Nat) :
    (∀ b v, tb = some b → tv = some v → b ≠ 0 → v ≠ 0 →
      worksBookmarkRate tb tv = some (pyRound5 ((b : ℚ) / v)))
    ∧ ((tb = none ∨ tv = none ∨ tb = some 0 ∨ tv = some 0) →
      worksBookmarkRate tb tv = none)
    ∧ (∀ ctx j language now, (Works.from_json ctx j language now).1.bookmark_rate
        = worksBookmarkRate j.total_bookmarks j.total_view) := by
  refine ⟨?_, ?_, ?_⟩
  · rintro b v rfl rfl hb hv
    simp [worksBookmarkRate, truthyNat, hb, hv]
  · rintro (rfl | rfl | rfl | rfl)
    · simp [worksBookmarkRate, truthyNat]
    · cases tb <;> simp [worksBookmarkRate, truthyNat]
    · simp [worksBookmarkRate, truthyNat]
    · cases tb <;> simp [worksBookmarkRate, truthyNat]
  · intro ctx j language now
    obtain ⟨r0, hr⟩ := works_from_json_first ctx j language now
    rw [hr]
    rfl

/-- C4 witness. -/
theorem c4_bookmark_rate_amended_witness :
    worksBookmarkRate (some 3) (some 7) = some (pyRound5 ((3 : ℚ) / 7)) :=
  (c4_bookmark_rate_amended (some 3) (some 7)).1 3 7 rfl rfl
    (by decide) (by decide)

/-- C10: `Works.from_json` never divides by zero when deriving
`bookmark_rate`: the quotient is evaluated only under the truthiness guard
on both counts, so whenever either count is `0`, absent or `None` the rate
is simply `None`, and a non-`None` rate can only arise from two present,
nonzero counts. -/
theorem c10_no_division_by_zero (tb tv : Option Nat) :
    ((tv = none ∨ tv = some 0 ∨ tb = none ∨ tb = some 0) →
      worksBookmarkRate tb tv = none)
    ∧ (worksBookmarkRate tb tv ≠ none →
      ∃ b v, tb = some b ∧ tv = some v ∧ b ≠ 0 ∧ v ≠ 0) := by
  constructor
  · rintro (rfl | rfl | rfl | rfl)
    · cases tb <;> simp [worksBookmarkRate, truthyNat]
    · cases tb <;> simp [worksBookmarkRate, truthyNat]
    · simp [worksBookmarkRate, truthyNat]
    · simp [worksBookmarkRate, truthyNat]
  · intro h
    rcases tb with _ | b
    · simp [worksBookmarkRate, truthyNat] at h
    · rcases tv with _ | v
      · simp [worksBookmarkRate, truthyNat] at h
      · refine ⟨b, v, rfl, rfl, ?_, ?_⟩ <;>
          by_contra hz <;>
          simp [worksBookmarkRate, truthyNat, hz] at h

/-- C10 witness. -/
theorem c10_no_division_by_zero_witness :
    worksBookmarkRate (some 5) (some 0) = none :=
  (c10_no_division_by_zero (some 5) (some 0)).1 (Or.inr (Or.inl rfl))

/-- C2 counterexample: work 1 is resident with non-empty title
`some "t"`, works_type `some "illust"` and counts; re-ingesting it through
`Works.from_json` with a JSON that carries only the mandatory keys —
`page_count` present but `0`, so the image-URL stage touches no meta
block and the real code reaches the merge — and has title, works_type and
the counts absent (`None`) leaves the single resident row with
`title = none`, `works_type = none` and `total_views = none`: existing
non-empty values are overwritten with emptiness. -/
theorem c2_counterexample :
    c2Row.title = some "t"
    ∧ c2Row.works_type = some "illust"
    ∧ c2Row.total_views = some 5
    ∧ exJsonBare.page_count = 0
    ∧ WorksImageURLs.from_works_json exJsonBare = []
    ∧ ((Works.from_json c2Ctx exJsonBare "en" 60).2.db.works.map
        (fun r => r.title)) = [none]
    ∧ ((Works.from_json c2Ctx exJsonBare "en" 60).2.db.works.map
        (fun r => r.works_type)) = [none]
    ∧ ((Works.from_json c2Ctx exJsonBare "en" 60).2.db.works.map
        (fun r => r.total_views)) = [none] :=
  ⟨rfl, rfl, rfl, rfl, rfl, rfl, rfl, rfl⟩

/-- C2 corrected: for every input that reaches the merge (which requires
`page_count` present, since the image-URL stage subscripts it before the
upsert), the merge step assigns every scalar `kv` field unconditionally,
so a field absent or `None` in the input JSON overwrites the stored value
with `None` (title, works_type, counts, ...); only the
conditionally-added `kv` keys — the caption here — are preserved when the
input is absent or empty, and fields outside `kv` (`is_downloaded`,
`insert_date`) are never touched by the merge. -/
theorem c2_merge_overwrites_scalars (j : WorksJson) (r : Works) :
    (worksKvMerge j r).title = j.title
    ∧ (worksKvMerge j r).works_type = j.works_type
    ∧ (worksKvMerge j r).page_count = some j.page_count
    ∧ (worksKvMerge j r).total_views = j.total_view
    ∧ (worksKvMerge j r).total_bookmarks = j.total_bookmarks
    ∧ (worksKvMerge j r).is_bookmarked = j.is_bookmarked
    ∧ (truthyStr j.caption = false → (worksKvMerge j r).caption = r.caption)
    ∧ (worksKvMerge j r).is_downloaded = r.is_downloaded
    ∧ (worksKvMerge j r).insert_date = r.insert_date := by
  refine ⟨rfl, rfl, rfl, rfl, rfl, rfl, ?_, rfl, rfl⟩
  intro h
  simp [worksKvMerge, h]

/-- C2 witness. -/
theorem c2_merge_overwrites_scalars_witness :
    (worksKvMerge exJsonBare c2Row).caption = c2Row.caption :=
  (c2_merge_overwrites_scalars exJsonBare c2Row).2.2.2.2.2.2.1 rfl

theorem tagTextAt_set_same_text (heap : List Tag) (r : Nat) (obj : Tag)
    (h : obj.tag_text = tagTextAt heap r) (i : Nat) :
    tagTextAt (heap.set r obj) i = tagTextAt heap i := by
  unfold tagTextAt
  rcases eq_or_ne i r with rfl | hne
  · by_cases hlt : i < heap.length
    · rw [List.getD, List.getD, List.get?_set_eq_of_lt _ hlt]
      rcases hg : heap.get? i with _ | t
      · exact absurd hg (by simp [List.get?_eq_none, hlt])
      · simp only [Option.map_some, Option.getD_some]
        rw [h]
        unfold tagTextAt
        rw [List.getD, hg, Option.getD_some]
    · rw [List.set_eq_of_length_le (by omega)]
  · rw [List.getD, List.getD, List.get?_set_ne _ _ (Ne.symm hne)]

theorem tagTextAt_append_lt (heap : List Tag) (objs : List Tag) (i : Nat)
    (h : i < heap.length) : tagTextAt (heap ++ objs) i = tagTextAt heap i := by
  unfold tagTextAt
  rw [List.getD, List.getD, List.get?_append h]

theorem tagTextAt_append_self (heap : List Tag) (obj : Tag) :
    tagTextAt (heap ++ [obj]) heap.length = obj.tag_text := by
  unfold tagTextAt
  rw [List.getD, List.get?_append_right (Nat.le_refl _)]
  simp

theorem applyTranslate_db (ctx : Ctx) (r : Nat) (tr : Option String)
    (lang : String) : (applyTranslate ctx r tr lang).db = ctx.db := by
  unfold applyTranslate
  rcases tr with _ | txt
  · rfl
  · by_cases h : txt == "" <;> simp [h]

theorem applyTranslate_cache (ctx : Ctx) (r : Nat) (tr : Option String)
    (lang : String) : (applyTranslate ctx r tr lang).cache = ctx.cache := by
  unfold applyTranslate
  rcases tr with _ | txt
  · rfl
  · by_cases h : txt == "" <;> simp [h]

theorem applyTranslate_heap_length (ctx : Ctx) (r : Nat) (tr : Option String)
    (lang : String) : (applyTranslate ctx r tr lang).heap.length = ctx.heap.length := by
  unfold applyTranslate
  rcases tr with _ | txt
  · rfl
  · by_cases h : txt == "" <;> simp [h]

theorem applyTranslate_text (ctx : Ctx) (r : Nat) (tr : Option String)
    (lang : String) (i : Nat) :
    tagTextAt (applyTranslate ctx r tr lang).heap i = tagTextAt ctx.heap i := by
  unfold applyTranslate
  rcases tr with _ | txt
  · rfl
  · by_cases h : txt == ""
    · simp [h]
    · simp only [h, Bool.false_eq_true, if_false]
      apply tagTextAt_set_same_text
      rfl

theorem resolveOne_cache_hit (ctx : Ctx) (n : String) (tr : Option String)
    (lang : String) (r : Nat) (hc : cacheLookup ctx.cache n = some r) :
    resolveOne ctx n tr lang =
      (r, { applyTranslate ctx r tr lang with cache := cacheInsert ctx.cache n r }) := by
  unfold resolveOne
  simp only [hc]
  rw [applyTranslate_cache]

theorem resolveOne_session_hit (ctx : Ctx) (n : String) (tr : Option String)
    (lang : String) (r : Nat) (hc : cacheLookup ctx.cache n = none)
    (hs : ctx.db.sessionTags.find? (fun rf => tagTextAt ctx.heap rf == n) = some r) :
    resolveOne ctx n tr lang =
      (r, { applyTranslate ctx r tr lang with cache := cacheInsert ctx.cache n r }) := by
  unfold resolveOne
  simp only [hc, hs]
  rw [applyTranslate_cache]

theorem resolveOne_create (ctx : Ctx) (n : String) (tr : Option String)
    (lang : String) (hc : cacheLookup ctx.cache n = none)
    (hs : ctx.db.sessionTags.find? (fun rf => tagTextAt ctx.heap rf == n) = none) :
    resolveOne ctx n tr lang =
      (ctx.heap.length,
       { applyTranslate (createTagCtx ctx n) ctx.heap.length tr lang with
           cache := cacheInsert ctx.cache n ctx.heap.length }) := by
  unfold resolveOne createTagCtx
  simp only [hc, hs]
  rw [applyTranslate_cache]

theorem cacheLookup_mem (c : TagsCache) (n : String) (r : Nat)
    (h : cacheLookup c n = some r) : ∃ p ∈ c, p.1 = n ∧ p.2 = r := by
  unfold cacheLookup at h
  rcases hf : c.find? (fun p => p.1 == n) with _ | p
  · rw [hf] at h; simp at h
  · rw [hf] at h
    simp only [Option.map_some', Option.some.injEq] at h
    have hp := List.find?_some hf
    exact ⟨p, List.mem_of_find?_eq_some hf, by simpa using hp, h⟩

theorem cacheInsert_keys (c : TagsCache) (k : String) (v : Nat) :
    (cacheInsert c k v).map (·.1) =
      if (c.find? (fun p => p.1 == k)).isSome then c.map (·.1)
      else c.map (·.1) ++ [k] := by
  unfold cacheInsert
  by_cases h : (c.find? (fun p => p.1 == k)).isSome
  · simp only [h, if_true, List.map_map]
    apply List.map_congr_left
    intro p _
    by_cases hp : p.1 = k <;> simp [hp]
  · rw [if_neg h, if_neg h, List.map_append]
    rfl

theorem mem_cacheInsert (c : TagsCache) (k : String) (v : Nat)
    (p : String × Nat) (h : p ∈ cacheInsert c k v) : p = (k, v) ∨ p ∈ c := by
  unfold cacheInsert at h
  by_cases hs : (c.find? (fun p => p.1 == k)).isSome
  · rw [if_pos hs] at h
    obtain ⟨q, hq, hqe⟩ := List.mem_map.mp h
    by_cases hqk : q.1 = k
    · left; rw [← hqe]; simp [hqk]
    · right; rw [← hqe]; simpa [hqk] using hq
  · rw [if_neg hs] at h
    rcases List.mem_append.mp h with h1 | h1
    · right; exact h1
    · left; simpa using h1

theorem cacheInsert_keys_nodup (c : TagsCache) (k : String) (v : Nat)
    (h : (c.map (·.1)).Nodup) : ((cacheInsert c k v).map (·.1)).Nodup := by
  rw [cacheInsert_keys]
  rcases hf : c.find? (fun p => p.1 == k) with _ | w
  · simp only [hf, Option.isSome_none, Bool.false_eq_true, if_false]
    rw [List.nodup_append]
    refine ⟨h, List.nodup_singleton k, ?_⟩
    intro x hx hxk
    simp only [List.mem_singleton] at hxk
    obtain ⟨q, hq, hqe⟩ := List.mem_map.mp hx
    have hnone := List.find?_eq_none.mp hf q hq
    apply hnone
    simp [hqe, hxk]
  · simp only [hf, Option.isSome_some, if_true]
    exact h

theorem resolveOne_cases (ctx : Ctx) (n : String) (tr : Option String)
    (lang : String) :
    (resolveOne ctx n tr lang).2.cache
      = cacheInsert ctx.cache n (resolveOne ctx n tr lang).1
    ∧ (((resolveOne ctx n tr lang).2.db = ctx.db
        ∧ (resolveOne ctx n tr lang).2.heap.length = ctx.heap.length
        ∧ (∀ i, tagTextAt (resolveOne ctx n tr lang).2.heap i = tagTextAt ctx.heap i)
        ∧ (cacheLookup ctx.cache n = some (resolveOne ctx n tr lang).1
           ∨ (cacheLookup ctx.cache n = none
              ∧ ctx.db.sessionTags.find? (fun rf => tagTextAt ctx.heap rf == n)
                  = some (resolveOne ctx n tr lang).1)))
      ∨ ((resolveOne ctx n tr lang).2.db = (createTagCtx ctx n).db
         ∧ (resolveOne ctx n tr lang).1 = ctx.heap.length
         ∧ (resolveOne ctx n tr lang).2.heap.length = ctx.heap.length + 1
         ∧ (∀ i, i < ctx.heap.length →
              tagTextAt (resolveOne ctx n tr lang).2.heap i = tagTextAt ctx.heap i)
         ∧ tagTextAt (resolveOne ctx n tr lang).2.heap (resolveOne ctx n tr lang).1 = n
         ∧ cacheLookup ctx.cache n = none
         ∧ ctx.db.sessionTags.find? (fun rf => tagTextAt ctx.heap rf == n) = none)) := by
  rcases hc : cacheLookup ctx.cache n with _ | r0
  · rcases hs : ctx.db.sessionTags.find?
        (fun rf => tagTextAt ctx.heap rf == n) with _ | r0
    · rw [resolveOne_create ctx n tr lang hc hs]
      refine ⟨rfl, Or.inr ⟨?_, rfl, ?_, ?_, ?_, rfl, rfl⟩⟩
      · simp [applyTranslate_db]
      · rw [applyTranslate_heap_length]
        simp [createTagCtx]
      · intro i hi
        rw [applyTranslate_text]
        show tagTextAt (ctx.heap ++ [⟨ctx.db.nextTagId, n, []⟩]) i = tagTextAt ctx.heap i
        exact tagTextAt_append_lt ctx.heap _ i hi
      · rw [applyTranslate_text]
        show tagTextAt (ctx.heap ++ [⟨ctx.db.nextTagId, n, []⟩]) ctx.heap.length = n
        rw [tagTextAt_append_self]
    · rw [resolveOne_session_hit ctx n tr lang r0 hc hs]
      refine ⟨rfl, Or.inl ⟨?_, ?_, ?_, Or.inr ⟨rfl, rfl⟩⟩⟩
      · simp [applyTranslate_db]
      · simp [applyTranslate_heap_length]
      · intro i
        simp [applyTranslate_text]
  · rw [resolveOne_cache_hit ctx n tr lang r0 hc]
    refine ⟨rfl, Or.inl ⟨?_, ?_, ?_, Or.inl rfl⟩⟩
    · simp [applyTranslate_db]
    · simp [applyTranslate_heap_length]
    · intro i
      simp [applyTranslate_text]

theorem resolveOne_facts (ctx : Ctx) (n : String) (tr : Option String)
    (lang : String) :
    cacheLookup (resolveOne ctx n tr lang).2.cache n
      = some (resolveOne ctx n tr lang).1
    ∧ (∀ m, m ≠ n → cacheLookup (resolveOne ctx n tr lang).2.cache m
        = cacheLookup ctx.cache m)
    ∧ ctx.heap.length ≤ (resolveOne ctx n tr lang).2.heap.length
    ∧ (∀ i, i < ctx.heap.length →
        tagTextAt (resolveOne ctx n tr lang).2.heap i = tagTextAt ctx.heap i)
    ∧ (resolveOne ctx n tr lang).2.db.works = ctx.db.works
    ∧ (resolveOne ctx n tr lang).2.db.users = ctx.db.users
    ∧ (resolveOne ctx n tr lang).2.db.userDetails = ctx.db.userDetails
    ∧ (resolveOne ctx n tr lang).2.db.worksLocal = ctx.db.worksLocal
    ∧ (resolveOne ctx n tr lang).2.db.ugoiras = ctx.db.ugoiras
    ∧ (resolveOne ctx n tr lang).2.db.nextWorksLocalId = ctx.db.nextWorksLocalId
    ∧ (resolveOne ctx n tr lang).2.db.nextUserLocalId = ctx.db.nextUserLocalId
    ∧ (∀ r, cacheLookup ctx.cache n = some r →
        (resolveOne ctx n tr lang).1 = r
        ∧ (resolveOne ctx n tr lang).2.db.sessionTags = ctx.db.sessionTags
        ∧ (resolveOne ctx n tr lang).2.heap.length = ctx.heap.length) := by
  obtain ⟨hcache, hbr⟩ := resolveOne_cases ctx n tr lang
  refine ⟨?_, ?_, ?_, ?_, ?_, ?_, ?_, ?_, ?_, ?_, ?_, ?_⟩
  · rw [hcache]; exact cacheLookup_cacheInsert_self _ _ _
  · intro m hm; rw [hcache]; exact cacheLookup_cacheInsert_ne _ _ _ _ hm
  · rcases hbr with ⟨_, hlen, _, _⟩ | ⟨_, _, hlen, _, _, _, _⟩ <;> omega
  · intro i hi
    rcases hbr with ⟨_, _, htext, _⟩ | ⟨_, _, _, htext, _, _, _⟩
    · exact htext i
    · exact htext i hi
  · rcases hbr with ⟨hdb, _⟩ | ⟨hdb, _⟩ <;> simp [hdb, createTagCtx]
  · rcases hbr with ⟨hdb, _⟩ | ⟨hdb, _⟩ <;> simp [hdb, createTagCtx]
  · rcases hbr with ⟨hdb, _⟩ | ⟨hdb, _⟩ <;> simp [hdb, createTagCtx]
  · rcases hbr with ⟨hdb, _⟩ | ⟨hdb, _⟩ <;> simp [hdb, createTagCtx]
  · rcases hbr with ⟨hdb, _⟩ | ⟨hdb, _⟩ <;> simp [hdb, createTagCtx]
  · rcases hbr with ⟨hdb, _⟩ | ⟨hdb, _⟩ <;> simp [hdb, createTagCtx]
  · rcases hbr with ⟨hdb, _⟩ | ⟨hdb, _⟩ <;> simp [hdb, createTagCtx]
  · intro r hr
    rcases hbr with ⟨hdb, hlen, _, hin⟩ | ⟨_, _, _, _, _, hnone, _⟩
    · rcases hin with hsome | ⟨hnone, _⟩
      · rw [hr] at hsome
        refine ⟨by simpa using hsome.symm, by rw [hdb], hlen⟩
      · rw [hnone] at hr; cases hr
    · rw [hnone] at hr; cases hr

theorem resolveOne_wf (ctx : Ctx) (n : String) (tr : Option String)
    (lang : String) (hwf : ctxWF ctx) :
    ctxWF (resolveOne ctx n tr lang).2
    ∧ (resolveOne ctx n tr lang).1 < (resolveOne ctx n tr lang).2.heap.length
    ∧ tagTextAt (resolveOne ctx n tr lang).2.heap (resolveOne ctx n tr lang).1 = n := by
  obtain ⟨hcache, hbr⟩ := resolveOne_cases ctx n tr lang
  obtain ⟨⟨hnodup, hcval⟩, hsess⟩ := hwf
  have hres : (resolveOne ctx n tr lang).1 < (resolveOne ctx n tr lang).2.heap.length
      ∧ tagTextAt (resolveOne ctx n tr lang).2.heap (resolveOne ctx n tr lang).1 = n := by
    rcases hbr with ⟨hdb, hlen, htext, hin⟩ | ⟨_, hr1, hlen, _, htop, _, _⟩
    · rcases hin with hsome | ⟨_, hfind⟩
      · obtain ⟨p, hp, hp1, hp2⟩ := cacheLookup_mem _ _ _ hsome
        obtain ⟨hplt, hptext⟩ := hcval p hp
        rw [hp2] at hplt hptext
        rw [hp1] at hptext
        exact ⟨by omega, by rw [htext]; exact hptext⟩
      · have hmem := List.mem_of_find?_eq_some hfind
        have hpred := List.find?_some hfind
        have hlt := hsess _ hmem
        refine ⟨by omega, ?_⟩
        rw [htext]
        simpa using hpred
    · exact ⟨by omega, htop⟩
  refine ⟨⟨⟨?_, ?_⟩, ?_⟩, hres.1, hres.2⟩
  · rw [hcache]
    exact cacheInsert_keys_nodup _ _ _ hnodup
  · intro p hp
    rw [hcache] at hp
    rcases mem_cacheInsert _ _ _ p hp with rfl | hold
    · exact ⟨hres.1, hres.2⟩
    · obtain ⟨hplt, hptext⟩ := hcval p hold
      rcases hbr with ⟨_, hlen, htext, _⟩ | ⟨_, _, hlen, htext, _, _, _⟩
      · exact ⟨by omega, by rw [htext]; exact hptext⟩
      · exact ⟨by omega, by rw [htext p.2 hplt]; exact hptext⟩
  · intro r hr
    rcases hbr with ⟨hdb, hlen, _, _⟩ | ⟨hdb, _, hlen, _, _, _, _⟩
    · rw [hdb] at hr
      have := hsess r hr
      omega
    · rw [hdb] at hr
      have : r ∈ ctx.db.sessionTags ++ [ctx.heap.length] := hr
      rcases List.mem_append.mp this with h1 | h1
      · have := hsess r h1
        omega
      · simp only [List.mem_singleton] at h1
        omega

theorem keysNodup_eq (c : TagsCache) (h : (c.map (·.1)).Nodup)
    (p q : String × Nat) (hp : p ∈ c) (hq : q ∈ c) (hk : p.1 = q.1) : p = q := by
  induction c with
  | nil => cases hp
  | cons x xs ih =>
    rw [List.map_cons, List.nodup_cons] at h
    rcases List.mem_cons.mp hp with rfl | hp'
    · rcases List.mem_cons.mp hq with rfl | hq'
      · rfl
      · exact absurd (hk ▸ List.mem_map_of_mem (·.1) hq') h.1
    · rcases List.mem_cons.mp hq with rfl | hq'
      · exact absurd (hk ▸ List.mem_map_of_mem (·.1) hp') h.1
      · exact ih h.2 hp' hq'

theorem cacheInsert_id (c : TagsCache) (k : String) (v : Nat)
    (hnodup : (c.map (·.1)).Nodup) (h : cacheLookup c k = some v) :
    cacheInsert c k v = c := by
  unfold cacheLookup at h
  rcases hf : c.find? (fun p => p.1 == k) with _ | q
  · rw [hf] at h; cases h
  · rw [hf] at h
    simp only [Option.map_some', Option.some.injEq] at h
    have hq1 : q.1 = k := by simpa using List.find?_some hf
    have hqmem := List.mem_of_find?_eq_some hf
    unfold cacheInsert
    rw [hf]
    simp only [Option.isSome_some, if_true]
    have : c.map (fun p => if p.1 == k then (k, v) else p) = c.map id := by
      apply List.map_congr_left
      intro p hpmem
      by_cases hpk : p.1 = k
      · have : p = q := keysNodup_eq c hnodup p q hpmem hqmem (by rw [hpk, hq1])
        subst this
        simp only [hpk, beq_self_eq_true, if_true, ← h]
        rw [← hpk, id_eq]
      · simp [hpk]
    rw [this, List.map_id]

theorem fromTagsJsonLoop_frame (tags : List TagIn) :
    ∀ (ctx : Ctx) (lang : String) (seen : List String) (res : List Nat) (ctx' : Ctx),
    fromTagsJsonLoop ctx lang seen tags = (res, ctx') →
    ctx'.db.works = ctx.db.works
    ∧ ctx'.db.users = ctx.db.users
    ∧ ctx'.db.userDetails = ctx.db.userDetails
    ∧ ctx'.db.worksLocal = ctx.db.worksLocal
    ∧ ctx'.db.ugoiras = ctx.db.ugoiras
    ∧ ctx'.db.nextWorksLocalId = ctx.db.nextWorksLocalId
    ∧ ctx'.db.nextUserLocalId = ctx.db.nextUserLocalId
    ∧ ctx.heap.length ≤ ctx'.heap.length
    ∧ (∀ i, i < ctx.heap.length → tagTextAt ctx'.heap i = tagTextAt ctx.heap i)
    ∧ (∀ m r, cacheLookup ctx.cache m = some r → cacheLookup ctx'.cache m = some r) := by
  induction tags with
  | nil =>
    intro ctx lang seen res ctx' heq
    unfold fromTagsJsonLoop at heq
    injection heq with h1 h2
    subst h2
    exact ⟨rfl, rfl, rfl, rfl, rfl, rfl, rfl, Nat.le_refl _, fun i _ => rfl,
      fun m r h => h⟩
  | cons t rest ih =>
    intro ctx lang seen res ctx' heq
    by_cases hseen : t.name ∈ seen
    · rw [fromTagsJsonLoop, if_pos hseen] at heq
      exact ih ctx lang seen res ctx' heq
    · rw [fromTagsJsonLoop, if_neg hseen] at heq
      rcases hB : fromTagsJsonLoop (resolveOne ctx t.name t.translated_name lang).2
          lang (t.name :: seen) rest with ⟨rs, ctxB⟩
      simp only [hB] at heq
      injection heq with h1 h2
      subst h2
      obtain ⟨f1, f2, f3, f4, f5, f6, f7, f8, f9, f10, f11, f12⟩ :=
        resolveOne_facts ctx t.name t.translated_name lang
      obtain ⟨g1, g2, g3, g4, g5, g6, g7, g8, g9, g10⟩ :=
        ih _ lang (t.name :: seen) rs ctxB hB
      refine ⟨by rw [g1, f5], by rw [g2, f6], by rw [g3, f7], by rw [g4, f8],
        by rw [g5, f9], by rw [g6, f10], by rw [g7, f11], by omega, ?_, ?_⟩
      · intro i hi
        rw [g9 i (by omega), f4 i hi]
      · intro m r hm
        by_cases hmn : m = t.name
        · subst hmn
          obtain ⟨h1', _, _⟩ := f12 r hm
          exact g10 t.name r (by rw [f1, h1'])
        · exact g10 m r (by rw [f2 m hmn]; exact hm)

theorem dedupFirst_not_mem_seen (tags : List TagIn) :
    ∀ (seen : List String) (nm : String), nm ∈ dedupFirst seen tags → nm ∉ seen := by
  induction tags with
  | nil => intro seen nm h; cases h
  | cons t rest ih =>
    intro seen nm h
    unfold dedupFirst at h
    by_cases hseen : t.name ∈ seen
    · rw [if_pos hseen] at h
      exact ih seen nm h
    · rw [if_neg hseen] at h
      rcases List.mem_cons.mp h with rfl | h'
      · exact hseen
      · have := ih (t.name :: seen) nm h'
        intro hmem
        exact this (List.mem_cons_of_mem _ hmem)

theorem dedupFirst_nodup (tags : List TagIn) :
    ∀ seen : List String, (dedupFirst seen tags).Nodup := by
  induction tags with
  | nil => intro seen; exact List.nodup_nil
  | cons t rest ih =>
    intro seen
    unfold dedupFirst
    by_cases hseen : t.name ∈ seen
    · rw [if_pos hseen]; exact ih seen
    · rw [if_neg hseen]
      rw [List.nodup_cons]
      refine ⟨?_, ih (t.name :: seen)⟩
      intro hmem
      exact dedupFirst_not_mem_seen rest (t.name :: seen) t.name hmem
        (List.mem_cons_self _ _)

theorem mem_dedupFirst (tags : List TagIn) :
    ∀ (seen : List String) (t : TagIn), t ∈ tags → t.name ∉ seen →
      t.name ∈ dedupFirst seen tags := by
  induction tags with
  | nil => intro seen t h; cases h
  | cons hd rest ih =>
    intro seen t ht hns
    unfold dedupFirst
    by_cases hseen : hd.name ∈ seen
    · rw [if_pos hseen]
      rcases List.mem_cons.mp ht with rfl | ht'
      · exact absurd hseen hns
      · exact ih seen t ht' hns
    · rw [if_neg hseen]
      rcases List.mem_cons.mp ht with rfl | ht'
      · exact List.mem_cons_self _ _
      · by_cases heq : t.name = hd.name
        · rw [heq]; exact List.mem_cons_self _ _
        · refine List.mem_cons_of_mem _ (ih (hd.name :: seen) t ht' ?_)
          intro hmem
          rcases List.mem_cons.mp hmem with h1 | h1
          · exact heq h1
          · exact hns h1

theorem dedupFirst_cons_mem {seen : List String} {t : TagIn} {rest : List TagIn}
    (h : t.name ∈ seen) : dedupFirst seen (t :: rest) = dedupFirst seen rest := by
  conv_lhs => rw [dedupFirst]
  rw [if_pos h]

theorem dedupFirst_cons_not_mem {seen : List String} {t : TagIn} {rest : List TagIn}
    (h : t.name ∉ seen) :
    dedupFirst seen (t :: rest) = t.name :: dedupFirst (t.name :: seen) rest := by
  conv_lhs => rw [dedupFirst]
  rw [if_neg h]

theorem fromTagsJsonLoop_hits_trace (tags : List TagIn) :
    ∀ (ctx : Ctx) (lang : String) (seen : List String) (res : List Nat) (ctx' : Ctx),
    fromTagsJsonLoop ctx lang seen tags = (res, ctx') →
    (∀ t ∈ tags, t.name ∉ seen → (cacheLookup ctx.cache t.name).isSome) →
    res = (dedupFirst seen tags).map (fun nm => (cacheLookup ctx.cache nm).getD 0)
    ∧ (∀ m, cacheLookup ctx'.cache m = cacheLookup ctx.cache m)
    ∧ ctx'.db.sessionTags = ctx.db.sessionTags
    ∧ ctx'.heap.length = ctx.heap.length := by
  induction tags with
  | nil =>
    intro ctx lang seen res ctx' heq hhits
    unfold fromTagsJsonLoop at heq
    injection heq with h1 h2
    subst h2
    exact ⟨h1.symm, fun m => rfl, rfl, rfl⟩
  | cons t rest ih =>
    intro ctx lang seen res ctx' heq hhits
    by_cases hseen : t.name ∈ seen
    · rw [fromTagsJsonLoop, if_pos hseen] at heq
      obtain ⟨h1, h2, h3, h4⟩ := ih ctx lang seen res ctx' heq
        (fun t' ht' => hhits t' (List.mem_cons_of_mem t ht'))
      refine ⟨?_, h2, h3, h4⟩
      rw [h1, dedupFirst_cons_mem hseen]
    · rw [fromTagsJsonLoop, if_neg hseen] at heq
      rcases hB : fromTagsJsonLoop (resolveOne ctx t.name t.translated_name lang).2
          lang (t.name :: seen) rest with ⟨rs, ctxB⟩
      simp only [hB] at heq
      injection heq with h1 h2
      subst h2
      obtain ⟨r, hr⟩ := Option.isSome_iff_exists.mp
        (hhits t (List.mem_cons_self t rest) hseen)
      obtain ⟨f1, f2, _, _, _, _, _, _, _, _, _, f12⟩ :=
        resolveOne_facts ctx t.name t.translated_name lang
      obtain ⟨href, hsessA, hlenA⟩ := f12 r hr
      have hlookA : ∀ m, cacheLookup (resolveOne ctx t.name t.translated_name lang).2.cache m
          = cacheLookup ctx.cache m := by
        intro m
        by_cases hmn : m = t.name
        · subst hmn
          rw [f1, href, hr]
        · exact f2 m hmn
      obtain ⟨g1, g2, g3, g4⟩ := ih _ lang (t.name :: seen) rs ctxB hB
        (by
          intro t' ht' hns
          rw [hlookA]
          refine hhits t' (List.mem_cons_of_mem t ht') ?_
          intro hmem
          exact hns (List.mem_cons_of_mem _ hmem))
      refine ⟨?_, ?_, ?_, ?_⟩
      · rw [← h1, g1, dedupFirst_cons_not_mem hseen, List.map_cons]
        congr 1
        · rw [hr, href]
          rfl
        · apply List.map_congr_left
          intro nm _
          rw [hlookA nm]
      · intro m
        rw [g2 m, hlookA m]
      · rw [g3, hsessA]
      · rw [g4, hlenA]

theorem fromTagsJsonLoop_wf (tags : List TagIn) :
    ∀ (ctx : Ctx) (lang : String) (seen : List String) (res : List Nat) (ctx' : Ctx),
    fromTagsJsonLoop ctx lang seen tags = (res, ctx') → ctxWF ctx →
    ctxWF ctx'
    ∧ (∀ ref ∈ res, ref < ctx'.heap.length
        ∧ cacheLookup ctx'.cache (tagTextAt ctx'.heap ref) = some ref)
    ∧ res.map (tagTextAt ctx'.heap) = dedupFirst seen tags := by
  induction tags with
  | nil =>
    intro ctx lang seen res ctx' heq hwf
    unfold fromTagsJsonLoop at heq
    injection heq with h1 h2
    subst h2
    subst h1
    exact ⟨hwf, fun ref h => absurd h (List.not_mem_nil ref), rfl⟩
  | cons t rest ih =>
    intro ctx lang seen res ctx' heq hwf
    by_cases hseen : t.name ∈ seen
    · rw [fromTagsJsonLoop, if_pos hseen] at heq
      obtain ⟨h1, h2, h3⟩ := ih ctx lang seen res ctx' heq hwf
      refine ⟨h1, h2, ?_⟩
      rw [h3, dedupFirst_cons_mem hseen]
    · rw [fromTagsJsonLoop, if_neg hseen] at heq
      rcases hB : fromTagsJsonLoop (resolveOne ctx t.name t.translated_name lang).2
          lang (t.name :: seen) rest with ⟨rs, ctxB⟩
      simp only [hB] at heq
      injection heq with h1 h2
      subst h2
      subst h1
      obtain ⟨hwfA, hltA, htextA⟩ := resolveOne_wf ctx t.name t.translated_name lang hwf
      obtain ⟨g1, g2, g3⟩ := ih _ lang (t.name :: seen) rs ctxB hB hwfA
      obtain ⟨f1, _⟩ := resolveOne_facts ctx t.name t.translated_name lang
      obtain ⟨_, _, _, _, _, _, _, m8, m9, m10⟩ :=
        fromTagsJsonLoop_frame rest _ lang (t.name :: seen) rs ctxB hB
      have hreflt : (resolveOne ctx t.name t.translated_name lang).1 < ctxB.heap.length := by
        omega
      have htextB : tagTextAt ctxB.heap (resolveOne ctx t.name t.translated_name lang).1
          = t.name := by
        rw [m9 _ hltA, htextA]
      refine ⟨g1, ?_, ?_⟩
      · intro ref href
        rcases List.mem_cons.mp href with rfl | href'
        · refine ⟨hreflt, ?_⟩
          rw [htextB]
          exact m10 t.name _ f1
        · exact g2 ref href'
      · rw [List.map_cons, htextB, g3, dedupFirst_cons_not_mem hseen]

theorem fromTagsJsonLoop_replay (tags : List TagIn) (ctx : Ctx) (lang : String)
    (seen : List String) (res : List Nat) (ctx' : Ctx)
    (heq : fromTagsJsonLoop ctx lang seen tags = (res, ctx')) (hwf : ctxWF ctx) :
    (fromTagsJsonLoop ctx' lang seen tags).1 = res := by
  obtain ⟨hwf', hrefs, hnames⟩ := fromTagsJsonLoop_wf tags ctx lang seen res ctx' heq hwf
  have hcomplete : ∀ t ∈ tags, t.name ∉ seen →
      (cacheLookup ctx'.cache t.name).isSome := by
    intro t ht hns
    have hmem : t.name ∈ dedupFirst seen tags := mem_dedupFirst tags seen t ht hns
    rw [← hnames] at hmem
    obtain ⟨ref, hrefmem, hreftext⟩ := List.mem_map.mp hmem
    obtain ⟨_, hlook⟩ := hrefs ref hrefmem
    rw [hreftext] at hlook
    rw [hlook]
    rfl
  rcases h2 : fromTagsJsonLoop ctx' lang seen tags with ⟨res2, ctx''⟩
  obtain ⟨htrace, _, _, _⟩ :=
    fromTagsJsonLoop_hits_trace tags ctx' lang seen res2 ctx'' h2 hcomplete
  show res2 = res
  rw [htrace, ← hnames, List.map_map]
  have : res.map ((fun nm => (cacheLookup ctx'.cache nm).getD 0) ∘ tagTextAt ctx'.heap)
      = res.map id := by
    apply List.map_congr_left
    intro ref hrefmem
    obtain ⟨_, hlook⟩ := hrefs ref hrefmem
    simp [Function.comp_apply, hlook]
  rw [this, List.map_id]

/-- C3: across one run — one or two `Tag.from_tags_json` calls threading
the same session and cache — any two tag occurrences resolving to the same
tag text yield the same canonical `Tag` row (lookup goes cache, then store
query by `tag_text`, then create); and within a single item's tag list the
`_tags` seen-set drops duplicate names before resolution, so each name is
canonicalized at most once per item: the result's texts are exactly the
first occurrences of the item's names, without duplicates. -/
theorem c3_tag_canonicalization (ctx : Ctx) (tags1 tags2 : List TagIn)
    (lang : String) (res1 res2 : List Nat) (ctx1 ctx2 : Ctx)
    (hwf : ctxWF ctx)
    (h1 : Tag.from_tags_json ctx tags1 lang = (res1, ctx1))
    (h2 : Tag.from_tags_json ctx1 tags2 lang = (res2, ctx2)) :
    (∀ a ∈ res1 ++ res2, ∀ b ∈ res1 ++ res2,
      tagTextAt ctx2.heap a = tagTextAt ctx2.heap b → a = b)
    ∧ res1.map (tagTextAt ctx1.heap) = dedupFirst [] tags1
    ∧ (res1.map (tagTextAt ctx1.heap)).Nodup
    ∧ res2.map (tagTextAt ctx2.heap) = dedupFirst [] tags2
    ∧ (res2.map (tagTextAt ctx2.heap)).Nodup := by
  have h1' : fromTagsJsonLoop ctx lang [] tags1 = (res1, ctx1) := h1
  have h2' : fromTagsJsonLoop ctx1 lang [] tags2 = (res2, ctx2) := h2
  obtain ⟨hwf1, hrefs1, hnames1⟩ := fromTagsJsonLoop_wf tags1 ctx lang [] res1 ctx1 h1' hwf
  obtain ⟨hwf2, hrefs2, hnames2⟩ := fromTagsJsonLoop_wf tags2 ctx1 lang [] res2 ctx2 h2' hwf1
  obtain ⟨_, _, _, _, _, _, _, m8, m9, m10⟩ :=
    fromTagsJsonLoop_frame tags2 ctx1 lang [] res2 ctx2 h2'
  have hkey : ∀ a ∈ res1 ++ res2,
      cacheLookup ctx2.cache (tagTextAt ctx2.heap a) = some a := by
    intro a ha
    rcases List.mem_append.mp ha with ha1 | ha2
    · obtain ⟨halt, halook⟩ := hrefs1 a ha1
      rw [m9 a halt]
      exact m10 _ a halook
    · exact (hrefs2 a ha2).2
  refine ⟨?_, hnames1, ?_, hnames2, ?_⟩
  · intro a ha b hb htext
    have hla := hkey a ha
    have hlb := hkey b hb
    rw [htext] at hla
    rw [hla] at hlb
    exact (Option.some.injEq _ _).mp hlb
  · rw [hnames1]; exact dedupFirst_nodup tags1 []
  · rw [hnames2]; exact dedupFirst_nodup tags2 []

/-- C3 witness. -/
theorem c3_tag_canonicalization_witness :
    ([0, 1] : List Nat).map (tagTextAt [⟨1, "cat", []⟩, ⟨2, "dog", []⟩])
      = dedupFirst [] [⟨"cat", none⟩, ⟨"dog", none⟩, ⟨"cat", none⟩] :=
  (c3_tag_canonicalization ⟨[], emptyDb, []⟩
    [⟨"cat", none⟩, ⟨"dog", none⟩, ⟨"cat", none⟩] [⟨"cat", none⟩] "en"
    [0, 1] [0]
    ⟨[⟨1, "cat", []⟩, ⟨2, "dog", []⟩], ⟨[0, 1], 3, [], [], 1, [], [], 1, []⟩,
      [("cat", 0), ("dog", 1)]⟩
    ⟨[⟨1, "cat", []⟩, ⟨2, "dog", []⟩], ⟨[0, 1], 3, [], [], 1, [], [], 1, []⟩,
      [("cat", 0), ("dog", 1)]⟩
    ⟨⟨List.nodup_nil, fun p hp => absurd hp (List.not_mem_nil p)⟩,
      fun r hr => absurd hr (List.not_mem_nil r)⟩
    rfl rfl).2.1

theorem works_from_json_state (ctx : Ctx) (j : WorksJson) (language : String)
    (now : Nat) :
    (Works.from_json ctx j language now).2.heap
      = (if truthyList j.tags then (Tag.from_tags_json ctx j.tags language).2 else ctx).heap
    ∧ (Works.from_json ctx j language now).2.cache
      = (if truthyList j.tags then (Tag.from_tags_json ctx j.tags language).2 else ctx).cache
    ∧ (Works.from_json ctx j language now).2.db.sessionTags
      = (if truthyList j.tags then (Tag.from_tags_json ctx j.tags language).2 else ctx).db.sessionTags
    ∧ (Works.from_json ctx j language now).2.db.users
      = (if truthyList j.tags then (Tag.from_tags_json ctx j.tags language).2 else ctx).db.users
    ∧ (Works.from_json ctx j language now).2.db.userDetails
      = (if truthyList j.tags then (Tag.from_tags_json ctx j.tags language).2 else ctx).db.userDetails
    ∧ (Works.from_json ctx j language now).2.db.worksLocal
      = (if truthyList j.tags then (Tag.from_tags_json ctx j.tags language).2 else ctx).db.worksLocal
    ∧ (Works.from_json ctx j language now).2.db.nextTagId
      = (if truthyList j.tags then (Tag.from_tags_json ctx j.tags language).2 else ctx).db.nextTagId
    ∧ ((if truthyList j.tags then (Tag.from_tags_json ctx j.tags language).2 else ctx).db.works.find?
        (fun r => r.works_id == j.id) = none →
        (Works.from_json ctx j language now).2.db.works
          = (if truthyList j.tags then (Tag.from_tags_json ctx j.tags language).2 else ctx).db.works
            ++ [worksKvMerge j (blankWorks now)]
        ∧ (Works.from_json ctx j language now).1 = worksKvMerge j (blankWorks now))
    ∧ (∀ u, (if truthyList j.tags then (Tag.from_tags_json ctx j.tags language).2 else ctx).db.works.find?
        (fun r => r.works_id == j.id) = some u →
        (Works.from_json ctx j language now).2.db.works
          = listUpdateFirst (fun r => r.works_id == j.id) (worksKvMerge j)
              (if truthyList j.tags then (Tag.from_tags_json ctx j.tags language).2 else ctx).db.works
        ∧ (Works.from_json ctx j language now).1 = worksKvMerge j u) := by
  unfold Works.from_json
  rcases hf : (if truthyList j.tags then (Tag.from_tags_json ctx j.tags language).2
      else ctx).db.works.find? (fun r => r.works_id == j.id) with _ | u
  · simp [hf]
  · simp only [hf]
    refine ⟨trivial, trivial, trivial, trivial, trivial, trivial, trivial,
      fun hnone => absurd hnone (by simp), fun u' hu' => ?_⟩
    injection hu' with h
    subst h
    exact ⟨by trivial, by trivial⟩

/-- C8 counterexample: two invocations of `Works.from_json` that omit
`tags_cache` share the module's single default dict.  After a first
cacheless call has resolved tag `a`, the same ingestion into a fresh
session 2 leaves session 2's `tags` table empty (the tag is served from
the shared cache), whereas against the pristine module state that very
call creates the tag row in session 2: the second invocation's result
depends on what the first invocation resolved. -/
theorem c8_counterexample :
    c8SessionTwoAfterRunOne.sessionTags = []
    ∧ c8SessionTwoFresh.sessionTags = [0]
    ∧ c8SessionTwoAfterRunOne ≠ c8SessionTwoFresh := by
  refine ⟨rfl, rfl, ?_⟩
  intro h
  have h2 := congrArg SessDb.sessionTags h
  rw [show c8SessionTwoAfterRunOne.sessionTags = [] from rfl,
      show c8SessionTwoFresh.sessionTags = [0] from rfl] at h2
  exact List.noConfusion h2

/-- C8 corrected: invocations of `Works.from_json` that omit `tags_cache`
all share one mutable default dict, evaluated once at function definition:
the cache state a cacheless call leaves behind is exactly what the next
cacheless call starts from, so cached tag state leaks between runs.  In
particular, when every tag name of the ingested JSON is already in the
shared default cache, the call resolves all its tags from that cache and
creates no tag row in its own session and no new `Tag` object at all.
Isolation requires passing a fresh cache explicitly. -/
theorem c8_default_cache_shared (p : Proc) (db : SessDb) (j : WorksJson)
    (language : String) (now : Nat)
    (hcached : ∀ t ∈ j.tags, (cacheLookup p.defaultCache t.name).isSome) :
    (worksFromJsonDefaultCache p db j language now).2.2.sessionTags
      = db.sessionTags
    ∧ (worksFromJsonDefaultCache p db j language now).2.1.heap.length
      = p.heap.length := by
  obtain ⟨s1, _, s3, _⟩ :=
    works_from_json_state ⟨p.heap, db, p.defaultCache⟩ j language now
  have hsess : (worksFromJsonDefaultCache p db j language now).2.2.sessionTags
      = (if truthyList j.tags
          then (Tag.from_tags_json ⟨p.heap, db, p.defaultCache⟩ j.tags language).2
          else (⟨p.heap, db, p.defaultCache⟩ : Ctx)).db.sessionTags := s3
  have hheap : (worksFromJsonDefaultCache p db j language now).2.1.heap
      = (if truthyList j.tags
          then (Tag.from_tags_json ⟨p.heap, db, p.defaultCache⟩ j.tags language).2
          else (⟨p.heap, db, p.defaultCache⟩ : Ctx)).heap := s1
  by_cases htags : truthyList j.tags
  · rcases hq : Tag.from_tags_json ⟨p.heap, db, p.defaultCache⟩ j.tags language
        with ⟨resq, ctxq⟩
    have hq' : fromTagsJsonLoop ⟨p.heap, db, p.defaultCache⟩ language [] j.tags
        = (resq, ctxq) := hq
    obtain ⟨_, _, hsessq, hlenq⟩ :=
      fromTagsJsonLoop_hits_trace j.tags ⟨p.heap, db, p.defaultCache⟩ language []
        resq ctxq hq' (fun t ht _ => hcached t ht)
    constructor
    · rw [hsess, if_pos htags, hq]
      exact hsessq
    · rw [hheap, if_pos htags, hq]
      exact hlenq
  · constructor
    · rw [hsess, if_neg htags]
    · rw [hheap, if_neg htags]

/-- C8 witness. -/
theorem c8_default_cache_shared_witness :
    (worksFromJsonDefaultCache ⟨[⟨1, "a", []⟩], [("a", 0)]⟩ emptyDb c8Json
        "en" 200).2.2.sessionTags = emptyDb.sessionTags :=
  (c8_default_cache_shared ⟨[⟨1, "a", []⟩], [("a", 0)]⟩ emptyDb c8Json "en" 200
    (by decide)).1

theorem tagStage_works (ctx : Ctx) (tags : List TagIn) (language : String) :
    (if truthyList tags then (Tag.from_tags_json ctx tags language).2 else ctx).db.works
      = ctx.db.works := by
  by_cases h : truthyList tags
  · rw [if_pos h]
    rcases hq : Tag.from_tags_json ctx tags language with ⟨res, ctxq⟩
    have hq' : fromTagsJsonLoop ctx language [] tags = (res, ctxq) := hq
    obtain ⟨f1, _⟩ := fromTagsJsonLoop_frame tags ctx language [] res ctxq hq'
    exact f1
  · rw [if_neg h]

theorem fromTagsJsonLoop_complete (tags : List TagIn) (ctx : Ctx) (lang : String)
    (seen : List String) (res : List Nat) (ctx' : Ctx)
    (heq : fromTagsJsonLoop ctx lang seen tags = (res, ctx')) (hwf : ctxWF ctx) :
    ∀ t ∈ tags, t.name ∉ seen → (cacheLookup ctx'.cache t.name).isSome := by
  obtain ⟨_, hrefs, hnames⟩ := fromTagsJsonLoop_wf tags ctx lang seen res ctx' heq hwf
  intro t ht hns
  have hmem : t.name ∈ dedupFirst seen tags := mem_dedupFirst tags seen t ht hns
  rw [← hnames] at hmem
  obtain ⟨ref, hrefmem, hreftext⟩ := List.mem_map.mp hmem
  obtain ⟨_, hlook⟩ := hrefs ref hrefmem
  rw [hreftext] at hlook
  rw [hlook]
  rfl

theorem upsertFirst_idem {α : Type} (p : α → Bool) (f : α → α) (l : List α)
    (hidem : ∀ x, f (f x) = f x) (hpf : ∀ x, p x = true → p (f x) = true) :
    listUpdateFirst p f (listUpdateFirst p f l) = listUpdateFirst p f l := by
  rcases hf : l.find? p with _ | u
  · rw [listUpdateFirst_of_find?_none p f l hf, listUpdateFirst_of_find?_none p f l hf]
  · apply listUpdateFirst_fixpoint
    intro a ha
    rw [find?_listUpdateFirst p f l hpf, hf] at ha
    simp only [Option.map_some', Option.some.injEq] at ha
    rw [← ha]
    exact hidem u

theorem upsertAppend_then_update {α : Type} (p : α → Bool) (f : α → α)
    (l : List α) (a : α) (hf : l.find? p = none) (hpa : p a = true)
    (hfa : f a = a) : listUpdateFirst p f (l ++ [a]) = l ++ [a] := by
  apply listUpdateFirst_fixpoint
  intro x hx
  rw [List.find?_append, hf, Option.none_or, List.find?_cons_of_pos _ hpa] at hx
  injection hx with h
  rw [← h]
  exact hfa

theorem find?_append_self {α : Type} (p : α → Bool) (l : List α) (a : α)
    (hf : l.find? p = none) (hpa : p a = true) :
    (l ++ [a]).find? p = some a := by
  rw [List.find?_append, hf, Option.none_or, List.find?_cons_of_pos _ hpa]

theorem worksKvMerge_idem (j : WorksJson) (r : Works) :
    worksKvMerge j (worksKvMerge j r) = worksKvMerge j r := by
  unfold worksKvMerge
  by_cases h : truthyStr j.caption <;> simp [h]

theorem worksKvMerge_pred (j : WorksJson) (r : Works) :
    ((worksKvMerge j r).works_id == j.id) = true := by
  simp [worksKvMerge]

theorem userKvMerge_idem (uj : UserJson) (r : User) :
    userKvMerge uj (userKvMerge uj r) = userKvMerge uj r := rfl

theorem userKvMerge_pred (uj : UserJson) (r : User) :
    ((userKvMerge uj r).user_id == uj.user_id) = true := by
  simp [userKvMerge]

theorem userDetailKvMerge_idem (uj : UserJson) (r : UserDetail) :
    userDetailKvMerge uj (userDetailKvMerge uj r) = userDetailKvMerge uj r := rfl

theorem userDetailKvMerge_pred (uj : UserJson) (r : UserDetail) :
    ((userDetailKvMerge uj r).user_id == uj.user_id) = true := by
  simp [userDetailKvMerge]

theorem userDetail_from_user_json_state (details : List UserDetail) (uj : UserJson) :
    (details.find? (fun r => r.user_id == uj.user_id) = none →
      (UserDetail.from_user_json details uj).2
        = details ++ [userDetailKvMerge uj ⟨0, 0, 0, 0, 0, 0, "", "", ""⟩])
    ∧ (∀ u, details.find? (fun r => r.user_id == uj.user_id) = some u →
      (UserDetail.from_user_json details uj).2
        = listUpdateFirst (fun r => r.user_id == uj.user_id) (userDetailKvMerge uj)
            details) := by
  unfold UserDetail.from_user_json
  rcases hf : details.find? (fun r => r.user_id == uj.user_id) with _ | u
  · simp [hf]
  · simp only [hf]
    exact ⟨fun hnone => absurd hnone (by simp), fun u' _ => by trivial⟩

theorem user_from_json_state (ctx : Ctx) (uj : UserJson) (now : Nat) :
    (User.from_json ctx uj now).2.db.userDetails
      = (UserDetail.from_user_json ctx.db.userDetails uj).2
    ∧ (ctx.db.users.find? (fun r => r.user_id == uj.user_id) = none →
        (User.from_json ctx uj now).2.db.users
          = ctx.db.users
            ++ [userKvMerge uj ⟨ctx.db.nextUserLocalId, 0, "", "", false, now⟩]
        ∧ (User.from_json ctx uj now).1
          = userKvMerge uj ⟨ctx.db.nextUserLocalId, 0, "", "", false, now⟩)
    ∧ (∀ u, ctx.db.users.find? (fun r => r.user_id == uj.user_id) = some u →
        (User.from_json ctx uj now).2.db.users
          = listUpdateFirst (fun r => r.user_id == uj.user_id) (userKvMerge uj)
              ctx.db.users
        ∧ (User.from_json ctx uj now).1 = userKvMerge uj u) := by
  unfold User.from_json
  rcases hf : ctx.db.users.find? (fun r => r.user_id == uj.user_id) with _ | u
  · simp [hf]
  · simp only [hf]
    refine ⟨by trivial, fun hnone => absurd hnone (by simp), fun u' hu' => ?_⟩
    injection hu' with h
    subst h
    exact ⟨by trivial, by trivial⟩

theorem userDetail_upsert_idem (details : List UserDetail) (uj : UserJson) :
    (UserDetail.from_user_json (UserDetail.from_user_json details uj).2 uj).2
      = (UserDetail.from_user_json details uj).2 := by
  rcases hf : details.find? (fun r => r.user_id == uj.user_id) with _ | u
  · have h1 := (userDetail_from_user_json_state details uj).1 hf
    have hsome : (UserDetail.from_user_json details uj).2.find?
        (fun r => r.user_id == uj.user_id)
          = some (userDetailKvMerge uj ⟨0, 0, 0, 0, 0, 0, "", "", ""⟩) := by
      rw [h1]
      exact find?_append_self _ details _ hf (userDetailKvMerge_pred uj _)
    have h2 := (userDetail_from_user_json_state
      (UserDetail.from_user_json details uj).2 uj).2 _ hsome
    rw [h2, h1]
    exact upsertAppend_then_update _ _ details _ hf (userDetailKvMerge_pred uj _)
      (userDetailKvMerge_idem uj _)
  · have h1 := (userDetail_from_user_json_state details uj).2 u hf
    have hsome : (UserDetail.from_user_json details uj).2.find?
        (fun r => r.user_id == uj.user_id) = some (userDetailKvMerge uj u) := by
      rw [h1, find?_listUpdateFirst _ _ details
        (fun x hx => userDetailKvMerge_pred uj x), hf]
      rfl
    have h2 := (userDetail_from_user_json_state
      (UserDetail.from_user_json details uj).2 uj).2 _ hsome
    rw [h2, h1]
    exact upsertFirst_idem _ _ details (userDetailKvMerge_idem uj)
      (fun x hx => userDetailKvMerge_pred uj x)

theorem user_upsert_users_idem (ctx : Ctx) (uj : UserJson) (now1 now2 : Nat) :
    (User.from_json (User.from_json ctx uj now1).2 uj now2).2.db.users
      = (User.from_json ctx uj now1).2.db.users := by
  rcases hf : ctx.db.users.find? (fun r => r.user_id == uj.user_id) with _ | u
  · obtain ⟨h1, _⟩ := (user_from_json_state ctx uj now1).2.1 hf
    have hsome : (User.from_json ctx uj now1).2.db.users.find?
        (fun r => r.user_id == uj.user_id)
          = some (userKvMerge uj ⟨ctx.db.nextUserLocalId, 0, "", "", false, now1⟩) := by
      rw [h1]
      exact find?_append_self _ ctx.db.users _ hf (userKvMerge_pred uj _)
    obtain ⟨h2, _⟩ := (user_from_json_state (User.from_json ctx uj now1).2 uj now2).2.2 _ hsome
    rw [h2, h1]
    exact upsertAppend_then_update _ _ ctx.db.users _ hf (userKvMerge_pred uj _)
      (userKvMerge_idem uj _)
  · obtain ⟨h1, _⟩ := (user_from_json_state ctx uj now1).2.2 u hf
    have hsome : (User.from_json ctx uj now1).2.db.users.find?
        (fun r => r.user_id == uj.user_id) = some (userKvMerge uj u) := by
      rw [h1, find?_listUpdateFirst _ _ ctx.db.users
        (fun x hx => userKvMerge_pred uj x), hf]
      rfl
    obtain ⟨h2, _⟩ := (user_from_json_state (User.from_json ctx uj now1).2 uj now2).2.2 _ hsome
    rw [h2, h1]
    exact upsertFirst_idem _ _ ctx.db.users (userKvMerge_idem uj)
      (fun x hx => userKvMerge_pred uj x)

theorem user_upsert_details_idem (ctx : Ctx) (uj : UserJson) (now1 now2 : Nat) :
    (User.from_json (User.from_json ctx uj now1).2 uj now2).2.db.userDetails
      = (User.from_json ctx uj now1).2.db.userDetails := by
  have h1 := (user_from_json_state ctx uj now1).1
  have h2 := (user_from_json_state (User.from_json ctx uj now1).2 uj now2).1
  rw [h2, h1]
  exact userDetail_upsert_idem ctx.db.userDetails uj

theorem works_upsert_works_idem (ctx : Ctx) (j : WorksJson) (language : String)
    (now1 now2 : Nat) :
    (Works.from_json (Works.from_json ctx j language now1).2 j language now2).2.db.works
      = (Works.from_json ctx j language now1).2.db.works := by
  obtain ⟨_, _, _, _, _, _, _, s8, s9⟩ := works_from_json_state ctx j language now1
  obtain ⟨_, _, _, _, _, _, _, t8, t9⟩ :=
    works_from_json_state (Works.from_json ctx j language now1).2 j language now2
  have hstage1 := tagStage_works ctx j.tags language
  have hstage2 := tagStage_works (Works.from_json ctx j language now1).2 j.tags language
  rcases hf : ctx.db.works.find? (fun r => r.works_id == j.id) with _ | u
  · obtain ⟨h1, _⟩ := s8 (by rw [hstage1]; exact hf)
    have hw1 : (Works.from_json ctx j language now1).2.db.works
        = ctx.db.works ++ [worksKvMerge j (blankWorks now1)] := by
      rw [h1, hstage1]
    have hsome : (if truthyList j.tags
          then (Tag.from_tags_json (Works.from_json ctx j language now1).2 j.tags language).2
          else (Works.from_json ctx j language now1).2).db.works.find?
        (fun r => r.works_id == j.id)
          = some (worksKvMerge j (blankWorks now1)) := by
      rw [hstage2, hw1]
      exact find?_append_self _ ctx.db.works _ hf (worksKvMerge_pred j _)
    obtain ⟨h2, _⟩ := t9 _ hsome
    rw [h2, hstage2, hw1]
    exact upsertAppend_then_update _ _ ctx.db.works _ hf (worksKvMerge_pred j _)
      (worksKvMerge_idem j _)
  · obtain ⟨h1, _⟩ := s9 u (by rw [hstage1]; exact hf)
    have hw1 : (Works.from_json ctx j language now1).2.db.works
        = listUpdateFirst (fun r => r.works_id == j.id) (worksKvMerge j)
            ctx.db.works := by
      rw [h1, hstage1]
    have hsome : (if truthyList j.tags
          then (Tag.from_tags_json (Works.from_json ctx j language now1).2 j.tags language).2
          else (Works.from_json ctx j language now1).2).db.works.find?
        (fun r => r.works_id == j.id) = some (worksKvMerge j u) := by
      rw [hstage2, hw1, find?_listUpdateFirst _ _ ctx.db.works
        (fun x hx => worksKvMerge_pred j x), hf]
      rfl
    obtain ⟨h2, _⟩ := t9 _ hsome
    rw [h2, hstage2, hw1]
    exact upsertFirst_idem _ _ ctx.db.works (worksKvMerge_idem j)
      (fun x hx => worksKvMerge_pred j x)

theorem works_reingest_no_new_tags (ctx : Ctx) (j : WorksJson) (language : String)
    (now1 now2 : Nat) (hwf : ctxWF ctx) :
    (Works.from_json (Works.from_json ctx j language now1).2 j language now2).2.db.sessionTags
      = (Works.from_json ctx j language now1).2.db.sessionTags
    ∧ (Works.from_json (Works.from_json ctx j language now1).2 j language now2).2.heap.length
      = (Works.from_json ctx j language now1).2.heap.length := by
  obtain ⟨s1, s2, s3, _⟩ := works_from_json_state ctx j language now1
  obtain ⟨t1, _, t3, _⟩ :=
    works_from_json_state (Works.from_json ctx j language now1).2 j language now2
  by_cases htags : truthyList j.tags
  · rcases hq : Tag.from_tags_json ctx j.tags language with ⟨res1, ctxq1⟩
    have hq' : fromTagsJsonLoop ctx language [] j.tags = (res1, ctxq1) := hq
    have hcomp := fromTagsJsonLoop_complete j.tags ctx language [] res1 ctxq1 hq' hwf
    have hcacheA : (Works.from_json ctx j language now1).2.cache = ctxq1.cache := by
      rw [s2, if_pos htags, hq]
    rcases hq2 : Tag.from_tags_json (Works.from_json ctx j language now1).2
        j.tags language with ⟨res2, ctxq2⟩
    have hq2' : fromTagsJsonLoop (Works.from_json ctx j language now1).2
        language [] j.tags = (res2, ctxq2) := hq2
    obtain ⟨_, _, hsess2, hlen2⟩ :=
      fromTagsJsonLoop_hits_trace j.tags (Works.from_json ctx j language now1).2
        language [] res2 ctxq2 hq2'
        (fun t ht _ => by
          rw [hcacheA]
          exact hcomp t ht (List.not_mem_nil t.name))
    constructor
    · rw [t3, if_pos htags, hq2]
      exact hsess2
    · have hheq : (Works.from_json (Works.from_json ctx j language now1).2
          j language now2).2.heap = ctxq2.heap := by
        rw [t1, if_pos htags, hq2]
      rw [hheq]
      exact hlen2
  · constructor
    · rw [t3, if_neg htags]
    · rw [t1, if_neg htags]

/-- C1: re-ingesting the same JSON is idempotent.  For a work (resp. user)
already resident under its natural key, `Works.from_json` /
`User.from_json` merge the supplied `kv` fields onto the resident row in
place — the table keeps its row count and no new row is added.
Furthermore, ingesting the same JSON a second time reproduces the works
table, the users table and the user-details table of the first ingestion
exactly (identical row counts and field values), and creates no new tag
row and no new `Tag` object either: no duplicate entity is ever created. -/
theorem c1_reingest_upsert (ctx : Ctx) (j : WorksJson) (uj : UserJson)
    (language : String) (now1 now2 : Nat) (hwf : ctxWF ctx) :
    (∀ u, ctx.db.works.find? (fun r => r.works_id == j.id) = some u →
      (Works.from_json ctx j language now1).2.db.works
        = listUpdateFirst (fun r => r.works_id == j.id) (worksKvMerge j)
            ctx.db.works
      ∧ (Works.from_json ctx j language now1).2.db.works.length
        = ctx.db.works.length
      ∧ (Works.from_json ctx j language now1).1 = worksKvMerge j u)
    ∧ (∀ u, ctx.db.users.find? (fun r => r.user_id == uj.user_id) = some u →
      (User.from_json ctx uj now1).2.db.users
        = listUpdateFirst (fun r => r.user_id == uj.user_id) (userKvMerge uj)
            ctx.db.users
      ∧ (User.from_json ctx uj now1).2.db.users.length = ctx.db.users.length
      ∧ (User.from_json ctx uj now1).1 = userKvMerge uj u)
    ∧ (Works.from_json (Works.from_json ctx j language now1).2 j language now2).2.db.works
        = (Works.from_json ctx j language now1).2.db.works
    ∧ (User.from_json (User.from_json ctx uj now1).2 uj now2).2.db.users
        = (User.from_json ctx uj now1).2.db.users
    ∧ (User.from_json (User.from_json ctx uj now1).2 uj now2).2.db.userDetails
        = (User.from_json ctx uj now1).2.db.userDetails
    ∧ (Works.from_json (Works.from_json ctx j language now1).2 j language now2).2.db.sessionTags
        = (Works.from_json ctx j language now1).2.db.sessionTags
    ∧ (Works.from_json (Works.from_json ctx j language now1).2 j language now2).2.heap.length
        = (Works.from_json ctx j language now1).2.heap.length := by
  refine ⟨?_, ?_, works_upsert_works_idem ctx j language now1 now2,
    user_upsert_users_idem ctx uj now1 now2,
    user_upsert_details_idem ctx uj now1 now2,
    (works_reingest_no_new_tags ctx j language now1 now2 hwf).1,
    (works_reingest_no_new_tags ctx j language now1 now2 hwf).2⟩
  · intro u hu
    have hstage := tagStage_works ctx j.tags language
    obtain ⟨_, _, _, _, _, _, _, _, s9⟩ := works_from_json_state ctx j language now1
    obtain ⟨hworks, hrow⟩ := s9 u (by rw [hstage]; exact hu)
    refine ⟨by rw [hworks, hstage], ?_, hrow⟩
    rw [hworks, hstage, length_listUpdateFirst]
  · intro u hu
    obtain ⟨husers, hrow⟩ := (user_from_json_state ctx uj now1).2.2 u hu
    refine ⟨husers, ?_, hrow⟩
    rw [husers, length_listUpdateFirst]

/-- C1 witness. -/
theorem c1_reingest_upsert_witness :
    (Works.from_json c2Ctx exJson "en" 100).2.db.works
      = listUpdateFirst (fun r => r.works_id == exJson.id) (worksKvMerge exJson)
          c2Ctx.db.works
    ∧ (Works.from_json c2Ctx exJson "en" 100).2.db.works.length
      = c2Ctx.db.works.length
    ∧ (Works.from_json c2Ctx exJson "en" 100).1 = worksKvMerge exJson c2Row :=
  (c1_reingest_upsert c2Ctx exJson exUserJson "en" 100 200
    ⟨⟨List.nodup_nil, fun p hp => absurd hp (List.not_mem_nil p)⟩,
      fun r hr => absurd hr (List.not_mem_nil r)⟩).1 c2Row rfl
